import Mathlib

/-!
# Verification of the Telegram financial bot's ledger core

Shallow embedding of the pure ledger/settlement/ingestion core
(`finance.py`) and of the SQLite persistence operations the claims need
(`database.py`, `bot.py`).

Modelling conventions:

* Monetary values are modelled as integer cents (`Int`).  Every
  monetary value in the program is rounded to 2 decimal places at each
  step (`round(x, 2)`), so on cent-valued data Python's `round(·, 2)` is
  the identity and the threshold `0.01` becomes `1` cent.
* Python dicts are modelled as association lists in insertion order:
  updating an existing key keeps its position, a new key is appended.
* `str.lower()` is modelled with `Char.toLower` (ASCII case folding,
  which covers every name the program compares against, in particular
  the owner token `"me"`).
* SQL tables are modelled as lists of records; the `debts` table is kept
  in `created_at` order (oldest first), which is the order the queries
  of `clear_debt` use.
-/

namespace FinanceBot

/-- `str.lower()` (ASCII case folding). -/
def pyLower (s : String) : String := ⟨s.data.map Char.toLower⟩

/-! ## Python dict model (insertion-ordered association list) -/

/-- `d[k] = v`: update in place if the key exists, else append. -/
def dictSet (d : List (String × Int)) (k : String) (v : Int) :
    List (String × Int) :=
  match d with
  | [] => [(k, v)]
  | (k₀, v₀) :: rest =>
    if k₀ = k then (k₀, v) :: rest else (k₀, v₀) :: dictSet rest k v

/-- `d.get(k, 0)`. -/
def dictGetD (d : List (String × Int)) (k : String) : Int :=
  match d with
  | [] => 0
  | (k₀, v₀) :: rest => if k₀ = k then v₀ else dictGetD rest k

/-! ## `finance.compute_balances` -/

/-- A raw debt row as fetched from the `debts` table
(`{creditor, debtor, amount}`). -/
structure DebtRow where
  creditor : String
  debtor : String
  amount : Int
  deriving DecidableEq, Repr

/-- One iteration of the accumulation loop of `compute_balances`. -/
def balanceStep (net : List (String × Int)) (row : DebtRow) :
    List (String × Int) :=
  let creditor := pyLower row.creditor
  let debtor := pyLower row.debtor
  if creditor = "me" then
    -- debtor owes me
    dictSet net debtor (dictGetD net debtor + row.amount)
  else if debtor = "me" then
    -- I owe creditor
    dictSet net creditor (dictGetD net creditor - row.amount)
  else
    -- Third-party debt (logged for completeness)
    let net₁ := dictSet net debtor (dictGetD net debtor - row.amount)
    dictSet net₁ creditor (dictGetD net₁ creditor + row.amount)

/-- The `net` dict built by the loop of `compute_balances`. -/
def computeNet (debt_rows : List DebtRow) : List (String × Int) :=
  debt_rows.foldl balanceStep []

/-- `compute_balances`: net per-person balance from raw debt rows.
The comprehension `{k: round(v, 2) for k, v in net.items() if abs(v) >= 0.01}`
keeps entries of at least one cent (rounding is the identity on cents). -/
def compute_balances (debt_rows : List DebtRow) : List (String × Int) :=
  (computeNet debt_rows).filter (fun kv => 1 ≤ |kv.2|)

/-! ## `finance.minimal_transfers` -/

/-- Code-point lexicographic comparison of character lists: Python's
string `<=`. -/
def charListLe : List Char → List Char → Bool
  | [], _ => true
  | _ :: _, [] => false
  | a :: as, b :: bs =>
    if a < b then true else if b < a then false else charListLe as bs

/-- Python's string order (code-point lexicographic). -/
def strLe (a b : String) : Prop := charListLe a.data b.data = true

instance decStrLe : DecidableRel strLe := fun a b =>
  inferInstanceAs (Decidable (charListLe a.data b.data = true))

theorem charListLe_total (a b : List Char) :
    charListLe a b = true ∨ charListLe b a = true := by
  induction a generalizing b with
  | nil => exact Or.inl rfl
  | cons x as ih =>
    cases b with
    | nil => exact Or.inr rfl
    | cons y bs =>
      rcases lt_trichotomy x y with h | h | h
      · left; simp [charListLe, h]
      · subst h
        rcases ih bs with h2 | h2 <;>
          simp [charListLe, lt_irrefl, h2]
      · right; simp [charListLe, h]

theorem charListLe_trans {a b c : List Char}
    (hab : charListLe a b = true) (hbc : charListLe b c = true) :
    charListLe a c = true := by
  induction a generalizing b c with
  | nil => rfl
  | cons x as ih =>
    cases b with
    | nil => simp [charListLe] at hab
    | cons y bs =>
      cases c with
      | nil => simp [charListLe] at hbc
      | cons z cs =>
        simp only [charListLe] at hab hbc ⊢
        rcases lt_trichotomy x y with h1 | h1 | h1
        · rcases lt_trichotomy y z with h2 | h2 | h2
          · simp [h1.trans h2]
          · subst h2; simp [h1]
          · by_cases h3 : x < z
            · simp [h3]
            · simp [h1, not_lt.mpr (le_of_lt h2), h2] at hbc
        · subst h1
          rcases lt_trichotomy x z with h2 | h2 | h2
          · simp [h2]
          · subst h2
            simp only [lt_irrefl, if_false] at hab hbc ⊢
            exact ih hab hbc
          · simp [not_lt.mpr (le_of_lt h2), h2] at hbc
        · simp [not_lt.mpr (le_of_lt h1), h1] at hab

/-- The order in which Python's `sorted([[v, k] for ...], reverse=True)`
lists its results: amount descending, ties by handle descending
(list comparison is lexicographic, and `reverse=True` reverses both
components). -/
def descLe (a b : Int × String) : Prop :=
  b.1 < a.1 ∨ (a.1 = b.1 ∧ strLe b.2 a.2)

instance decDescLe : DecidableRel descLe := fun a b =>
  decidable_of_iff (b.1 < a.1 ∨ (a.1 = b.1 ∧ strLe b.2 a.2)) Iff.rfl

instance : IsTotal (Int × String) descLe where
  total a b := by
    unfold descLe
    rcases lt_trichotomy a.1 b.1 with h | h | h
    · exact Or.inr (Or.inl h)
    · rcases charListLe_total b.2.data a.2.data with h2 | h2
      · exact Or.inl (Or.inr ⟨h, h2⟩)
      · exact Or.inr (Or.inr ⟨h.symm, h2⟩)
    · exact Or.inl (Or.inl h)

instance : IsTrans (Int × String) descLe where
  trans a b c hab hbc := by
    unfold descLe at *
    rcases hab with h1 | ⟨h1, h1'⟩ <;> rcases hbc with h2 | ⟨h2, h2'⟩
    · exact Or.inl (h2.trans h1)
    · exact Or.inl (h2 ▸ h1)
    · exact Or.inl (h1 ▸ h2)
    · exact Or.inr ⟨h1.trans h2, charListLe_trans h2' h1'⟩

/-- `sorted([[v, k] for k, v in balances.items() if v > 0], reverse=True)`. -/
def creditorsOf (balances : List (String × Int)) : List (Int × String) :=
  List.insertionSort descLe
    ((balances.filter (fun kv => 0 < kv.2)).map (fun kv => (kv.2, kv.1)))

/-- `sorted([[abs(v), k] for k, v in balances.items() if v < 0], reverse=True)`. -/
def debtorsOf (balances : List (String × Int)) : List (Int × String) :=
  List.insertionSort descLe
    ((balances.filter (fun kv => kv.2 < 0)).map (fun kv => (|kv.2|, kv.1)))

/-- The two-pointer loop of `minimal_transfers`.  Advancing pointer `i`
past the front of the creditor list models `i += 1`, and keeping a
reduced front entry models writing `creditors[i][0]`.  Since
`amount = min credit debt`, at least one residual is exactly `0 < 1`
cent each iteration, so the branch in which neither pointer advances is
unreachable (the Python loop would not terminate there); it is totalised
by dropping both entries. -/
def settleLoop :
    List (Int × String) → List (Int × String) →
    List (String × String × Int)
  | [], _ => []
  | _ :: _, [] => []
  | (credit, creditor) :: cs, (debt, debtor) :: ds =>
    let amount := min credit debt
    let c' := credit - amount
    let d' := debt - amount
    (debtor, creditor, amount) ::
      (if c' < 1 then
        if d' < 1 then settleLoop cs ds
        else settleLoop cs ((d', debtor) :: ds)
      else
        if d' < 1 then settleLoop ((c', creditor) :: cs) ds
        else settleLoop cs ds)
  termination_by c d => c.length + d.length
  decreasing_by all_goals simp_arith

/-- `minimal_transfers`: greedy debt-settlement.  Returns
`[(payer, receiver, amount), ...]`. -/
def minimal_transfers (balances : List (String × Int)) :
    List (String × String × Int) :=
  settleLoop (creditorsOf balances) (debtorsOf balances)

/-! ## Applying a transfer plan to a net mapping -/

/-- Apply one transfer `(payer, receiver, amount)` to a net mapping:
the payer is debited (their negative net position rises by `amount`)
and the receiver is credited (their positive net claim falls by
`amount`). -/
def applyTransfer (net : List (String × Int)) (t : String × String × Int) :
    List (String × Int) :=
  let net₁ := dictSet net t.1 (dictGetD net t.1 + t.2.2)
  dictSet net₁ t.2.1 (dictGetD net₁ t.2.1 - t.2.2)

/-- Apply a whole transfer plan, in order. -/
def applyTransfers (net : List (String × Int))
    (ts : List (String × String × Int)) : List (String × Int) :=
  ts.foldl applyTransfer net

/-- Total amount paid by `p` across a transfer plan. -/
def paidBy (ts : List (String × String × Int)) (p : String) : Int :=
  ((ts.filter (fun t => t.1 = p)).map (fun t => t.2.2)).sum

/-- Total amount received by `r` across a transfer plan. -/
def receivedBy (ts : List (String × String × Int)) (r : String) : Int :=
  ((ts.filter (fun t => t.2.1 = r)).map (fun t => t.2.2)).sum

/-! ## Lemmas about the two-pointer loop -/

theorem settleLoop_nil_left (d : List (Int × String)) :
    settleLoop [] d = [] := by
  simp [settleLoop]

theorem settleLoop_nil_right (x : Int × String) (c : List (Int × String)) :
    settleLoop (x :: c) [] = [] := by
  simp [settleLoop]

theorem settleLoop_cons_cons (credit : Int) (creditor : String)
    (cs : List (Int × String)) (debt : Int) (debtor : String)
    (ds : List (Int × String)) :
    settleLoop ((credit, creditor) :: cs) ((debt, debtor) :: ds) =
      (debtor, creditor, min credit debt) ::
        (if credit - min credit debt < 1 then
          if debt - min credit debt < 1 then settleLoop cs ds
          else settleLoop cs ((debt - min credit debt, debtor) :: ds)
        else
          if debt - min credit debt < 1 then
            settleLoop ((credit - min credit debt, creditor) :: cs) ds
          else settleLoop cs ds) := by
  rw [settleLoop]

/-- Each iteration of the loop appends one transfer and advances at least
one pointer, so the loop emits at most `|creditors| + |debtors| - 1`
transfers. -/
theorem settleLoop_length_le (c d : List (Int × String)) :
    (settleLoop c d).length ≤ c.length + d.length - 1 := by
  induction c, d using settleLoop.induct with
  | case1 d => simp [settleLoop]
  | case2 x c => simp [settleLoop]
  | case3 credit creditor cs debt debtor ds amount c' d' ih1 ih2 ih3 =>
    rw [settleLoop_cons_cons,
      show credit - min credit debt = c' from rfl,
      show debt - min credit debt = d' from rfl]
    split_ifs with h1 h2 h2 <;>
      simp only [List.length_cons] at * <;> omega

/-- Every transfer the loop emits pays from a debtor handle to a
creditor handle. -/
theorem settleLoop_names (c d : List (Int × String)) :
    ∀ t ∈ settleLoop c d, t.1 ∈ d.map Prod.snd ∧ t.2.1 ∈ c.map Prod.snd := by
  induction c, d using settleLoop.induct with
  | case1 d => simp [settleLoop]
  | case2 x c => simp [settleLoop]
  | case3 credit creditor cs debt debtor ds amount c' d' ih1 ih2 ih3 =>
    intro t ht
    rw [settleLoop_cons_cons,
      show credit - min credit debt = c' from rfl,
      show debt - min credit debt = d' from rfl] at ht
    rcases List.mem_cons.mp ht with h | h
    · subst h; simp
    · split_ifs at h with h1 h2 h2
      · rcases ih1 t h with ⟨ha, hb⟩
        exact ⟨List.mem_cons_of_mem _ ha, List.mem_cons_of_mem _ hb⟩
      · rcases ih2 t h with ⟨ha, hb⟩
        simp only [List.map_cons] at ha
        exact ⟨ha, List.mem_cons_of_mem _ hb⟩
      · rcases ih3 t h with ⟨ha, hb⟩
        simp only [List.map_cons] at hb
        exact ⟨List.mem_cons_of_mem _ ha, hb⟩
      · rcases ih1 t h with ⟨ha, hb⟩
        exact ⟨List.mem_cons_of_mem _ ha, List.mem_cons_of_mem _ hb⟩

theorem receivedBy_cons (t : String × String × Int)
    (ts : List (String × String × Int)) (r : String) :
    receivedBy (t :: ts) r =
      (if t.2.1 = r then t.2.2 else 0) + receivedBy ts r := by
  simp only [receivedBy, List.filter_cons, decide_eq_true_eq]
  split_ifs with h <;> simp [h]

theorem paidBy_cons (t : String × String × Int)
    (ts : List (String × String × Int)) (p : String) :
    paidBy (t :: ts) p = (if t.1 = p then t.2.2 else 0) + paidBy ts p := by
  simp only [paidBy, List.filter_cons, decide_eq_true_eq]
  split_ifs with h <;> simp [h]

theorem receivedBy_eq_zero {ts : List (String × String × Int)} {r : String}
    (h : ∀ t ∈ ts, t.2.1 ≠ r) : receivedBy ts r = 0 := by
  induction ts with
  | nil => rfl
  | cons t ts ih =>
    rw [receivedBy_cons, if_neg (h t (List.mem_cons_self t ts)),
      ih fun u hu => h u (List.mem_cons_of_mem t hu)]
    exact zero_add 0

theorem paidBy_eq_zero {ts : List (String × String × Int)} {p : String}
    (h : ∀ t ∈ ts, t.1 ≠ p) : paidBy ts p = 0 := by
  induction ts with
  | nil => rfl
  | cons t ts ih =>
    rw [paidBy_cons, if_neg (h t (List.mem_cons_self t ts)),
      ih fun u hu => h u (List.mem_cons_of_mem t hu)]
    exact zero_add 0

theorem settleLoop_receivedBy_zero {c d : List (Int × String)} {r : String}
    (h : r ∉ c.map Prod.snd) : receivedBy (settleLoop c d) r = 0 :=
  receivedBy_eq_zero fun t ht he => h (he ▸ (settleLoop_names c d t ht).2)

theorem settleLoop_paidBy_zero {c d : List (Int × String)} {p : String}
    (h : p ∉ d.map Prod.snd) : paidBy (settleLoop c d) p = 0 :=
  paidBy_eq_zero fun t ht he => h (he ▸ (settleLoop_names c d t ht).1)

theorem eq_nil_of_sum_zero_of_pos {l : List (Int × String)}
    (hpos : ∀ x ∈ l, 0 < x.1) (hsum : (l.map Prod.fst).sum = 0) : l = [] := by
  cases l with
  | nil => rfl
  | cons x xs =>
    exfalso
    have hx : 0 < x.1 := hpos x (List.mem_cons_self _ _)
    have hxs : 0 ≤ (xs.map Prod.fst).sum :=
      List.sum_nonneg fun v hv => by
        obtain ⟨y, hy, rfl⟩ := List.mem_map.mp hv
        exact le_of_lt (hpos y (List.mem_cons_of_mem _ hy))
    simp only [List.map_cons, List.sum_cons] at hsum
    omega

/-- Core correctness of the greedy loop: when every listed amount is
positive, the handles are pairwise distinct and total credit equals
total debt, the emitted transfers give each creditor exactly their
credit and take from each debtor exactly their debt. -/
theorem settleLoop_settles :
    ∀ c d : List (Int × String),
      (∀ x ∈ c, 0 < x.1) → (∀ x ∈ d, 0 < x.1) →
      (((c ++ d).map Prod.snd)).Nodup →
      (c.map Prod.fst).sum = (d.map Prod.fst).sum →
      (∀ x ∈ c, receivedBy (settleLoop c d) x.2 = x.1) ∧
      (∀ x ∈ d, paidBy (settleLoop c d) x.2 = x.1) := by
  intro c d
  induction c, d using settleLoop.induct with
  | case1 d =>
    intro _ hd _ hsum
    have hd0 : d = [] := eq_nil_of_sum_zero_of_pos hd (by simpa using hsum.symm)
    subst hd0
    exact ⟨by simp, by simp⟩
  | case2 x c =>
    intro hc _ _ hsum
    have : x :: c = [] := eq_nil_of_sum_zero_of_pos hc (by simpa using hsum)
    exact absurd this (List.cons_ne_nil x c)
  | case3 credit creditor cs debt debtor ds amount c' d' ih1 ih2 ih3 =>
    intro hc hd hnd hsum
    have hcredit : 0 < credit := hc _ (List.mem_cons_self _ _)
    have hdebt : 0 < debt := hd _ (List.mem_cons_self _ _)
    have hcs : ∀ x ∈ cs, 0 < x.1 := fun x hx => hc x (List.mem_cons_of_mem _ hx)
    have hds : ∀ x ∈ ds, 0 < x.1 := fun x hx => hd x (List.mem_cons_of_mem _ hx)
    have hnames : (((credit, creditor) :: cs ++ (debt, debtor) :: ds).map
        Prod.snd) = creditor :: (cs.map Prod.snd ++ debtor :: ds.map Prod.snd) := by
      simp
    rw [hnames, List.nodup_cons] at hnd
    obtain ⟨hcred_notin, hrest⟩ := hnd
    have hcred_cs : creditor ∉ cs.map Prod.snd := fun h =>
      hcred_notin (List.mem_append_left _ h)
    have hdeb_cons : (debtor :: ds.map Prod.snd).Nodup := hrest.of_append_right
    have hdeb_ds : debtor ∉ ds.map Prod.snd := (List.nodup_cons.mp hdeb_cons).1
    have hsum' : credit + (cs.map Prod.fst).sum
        = debt + (ds.map Prod.fst).sum := by simpa using hsum
    rw [settleLoop_cons_cons,
      show credit - min credit debt = c' from rfl,
      show debt - min credit debt = d' from rfl]
    rcases lt_trichotomy credit debt with hlt | heq | hgt
    · -- credit < debt: the creditor is exhausted, the debtor is reduced
      have hmin : min credit debt = credit := min_eq_left (le_of_lt hlt)
      have hc'0 : c' = 0 := by
        rw [show c' = credit - min credit debt from rfl, hmin]; omega
      have hd'eq : d' = debt - credit := by
        rw [show d' = debt - min credit debt from rfl, hmin]
      have hd'pos : 0 < d' := by omega
      rw [if_pos (by omega : c' < 1), if_neg (by omega : ¬ d' < 1), hmin]
      have hnodup₂ : ((cs ++ (d', debtor) :: ds).map Prod.snd).Nodup := by
        simpa using hrest
      have hpos₂ : ∀ x ∈ (d', debtor) :: ds, 0 < x.1 := by
        intro x hx
        rcases List.mem_cons.mp hx with rfl | hx'
        · exact hd'pos
        · exact hds x hx'
      have hsum₂ : (cs.map Prod.fst).sum
          = (((d', debtor) :: ds).map Prod.fst).sum := by
        simp only [List.map_cons, List.sum_cons]
        omega
      obtain ⟨ihr, ihp⟩ := ih2 hcs hpos₂ hnodup₂ hsum₂
      constructor
      · intro x hx
        rcases List.mem_cons.mp hx with rfl | hx'
        · rw [receivedBy_cons]
          dsimp only
          rw [if_pos rfl, settleLoop_receivedBy_zero hcred_cs]
          omega
        · have hxne : creditor ≠ x.2 := fun h =>
            hcred_cs (by rw [h]; exact List.mem_map_of_mem Prod.snd hx')
          rw [receivedBy_cons]
          dsimp only
          rw [if_neg hxne, ihr x hx', zero_add]
      · intro x hx
        rcases List.mem_cons.mp hx with rfl | hx'
        · have hp := ihp (d', debtor) (List.mem_cons_self _ _)
          dsimp only at hp
          rw [paidBy_cons]
          dsimp only
          rw [if_pos rfl, hp]
          omega
        · have hxne : debtor ≠ x.2 := fun h =>
            hdeb_ds (by rw [h]; exact List.mem_map_of_mem Prod.snd hx')
          rw [paidBy_cons]
          dsimp only
          rw [if_neg hxne, ihp x (List.mem_cons_of_mem _ hx'), zero_add]
    · -- credit = debt: both sides are exhausted together
      subst heq
      have hc'0 : c' = 0 := by
        rw [show c' = credit - min credit credit from rfl, min_self]; omega
      have hd'0 : d' = 0 := by
        rw [show d' = credit - min credit credit from rfl, min_self]; omega
      rw [if_pos (by omega : c' < 1), if_pos (by omega : d' < 1), min_self]
      have hnodup₂ : ((cs ++ ds).map Prod.snd).Nodup := by
        refine hrest.sublist ?_
        simp only [List.map_append]
        exact (List.sublist_cons_self _ _).append_left _
      have hsum₂ : (cs.map Prod.fst).sum = (ds.map Prod.fst).sum := by omega
      obtain ⟨ihr, ihp⟩ := ih1 hcs hds hnodup₂ hsum₂
      constructor
      · intro x hx
        rcases List.mem_cons.mp hx with rfl | hx'
        · rw [receivedBy_cons]
          dsimp only
          rw [if_pos rfl, settleLoop_receivedBy_zero hcred_cs]
          omega
        · have hxne : creditor ≠ x.2 := fun h =>
            hcred_cs (by rw [h]; exact List.mem_map_of_mem Prod.snd hx')
          rw [receivedBy_cons]
          dsimp only
          rw [if_neg hxne, ihr x hx', zero_add]
      · intro x hx
        rcases List.mem_cons.mp hx with rfl | hx'
        · rw [paidBy_cons]
          dsimp only
          rw [if_pos rfl, settleLoop_paidBy_zero hdeb_ds]
          omega
        · have hxne : debtor ≠ x.2 := fun h =>
            hdeb_ds (by rw [h]; exact List.mem_map_of_mem Prod.snd hx')
          rw [paidBy_cons]
          dsimp only
          rw [if_neg hxne, ihp x hx', zero_add]
    · -- credit > debt: the debtor is exhausted, the creditor is reduced
      have hmin : min credit debt = debt := min_eq_right (le_of_lt hgt)
      have hc'eq : c' = credit - debt := by
        rw [show c' = credit - min credit debt from rfl, hmin]
      have hc'pos : 0 < c' := by omega
      have hd'0 : d' = 0 := by
        rw [show d' = debt - min credit debt from rfl, hmin]; omega
      rw [if_neg (by omega : ¬ c' < 1), if_pos (by omega : d' < 1), hmin]
      have hnodup₂ : (((c', creditor) :: cs ++ ds).map Prod.snd).Nodup := by
        simp only [List.cons_append, List.map_cons, List.map_append]
        refine List.Nodup.cons ?_ ?_
        · intro hmem
          refine hcred_notin ?_
          rcases List.mem_append.mp hmem with h | h
          · exact List.mem_append_left _ h
          · exact List.mem_append_right _ (List.mem_cons_of_mem _ h)
        · refine hrest.sublist ?_
          exact (List.sublist_cons_self _ _).append_left _
      have hpos₂ : ∀ x ∈ (c', creditor) :: cs, 0 < x.1 := by
        intro x hx
        rcases List.mem_cons.mp hx with rfl | hx'
        · exact hc'pos
        · exact hcs x hx'
      have hsum₂ : (((c', creditor) :: cs).map Prod.fst).sum
          = (ds.map Prod.fst).sum := by
        simp only [List.map_cons, List.sum_cons]
        omega
      obtain ⟨ihr, ihp⟩ := ih3 hpos₂ hds hnodup₂ hsum₂
      constructor
      · intro x hx
        rcases List.mem_cons.mp hx with rfl | hx'
        · have hcr := ihr (c', creditor) (List.mem_cons_self _ _)
          dsimp only at hcr
          rw [receivedBy_cons]
          dsimp only
          rw [if_pos rfl, hcr]
          omega
        · have hxne : creditor ≠ x.2 := fun h =>
            hcred_cs (by rw [h]; exact List.mem_map_of_mem Prod.snd hx')
          rw [receivedBy_cons]
          dsimp only
          rw [if_neg hxne, ihr x (List.mem_cons_of_mem _ hx'), zero_add]
      · intro x hx
        rcases List.mem_cons.mp hx with rfl | hx'
        · rw [paidBy_cons]
          dsimp only
          rw [if_pos rfl, settleLoop_paidBy_zero hdeb_ds]
          omega
        · have hxne : debtor ≠ x.2 := fun h =>
            hdeb_ds (by rw [h]; exact List.mem_map_of_mem Prod.snd hx')
          rw [paidBy_cons]
          dsimp only
          rw [if_neg hxne, ihp x hx', zero_add]

/-! ## Dict lemmas and applying transfer plans -/

theorem dictGetD_dictSet_same (d : List (String × Int)) (k : String) (v : Int) :
    dictGetD (dictSet d k v) k = v := by
  induction d with
  | nil => simp [dictSet, dictGetD]
  | cons x rest ih =>
    obtain ⟨k₀, v₀⟩ := x
    by_cases h : k₀ = k <;> simp [dictSet, dictGetD, h, ih]

theorem dictGetD_dictSet_other (d : List (String × Int)) (k : String) (v : Int)
    (k' : String) (h : k ≠ k') :
    dictGetD (dictSet d k v) k' = dictGetD d k' := by
  induction d with
  | nil => simp [dictSet, dictGetD, h]
  | cons x rest ih =>
    obtain ⟨k₀, v₀⟩ := x
    by_cases h0 : k₀ = k
    · subst h0
      simp [dictSet, dictGetD, h]
    · simp [dictSet, dictGetD, h0, ih]

theorem applyTransfer_getD (net : List (String × Int))
    (t : String × String × Int) (k : String) :
    dictGetD (applyTransfer net t) k =
      dictGetD net k + (if t.1 = k then t.2.2 else 0)
        - (if t.2.1 = k then t.2.2 else 0) := by
  obtain ⟨p, r, a⟩ := t
  dsimp only [applyTransfer]
  by_cases hr : r = k
  · subst hr
    rw [dictGetD_dictSet_same, if_pos rfl]
    by_cases hp : p = r
    · subst hp
      rw [dictGetD_dictSet_same, if_pos rfl]
    · rw [dictGetD_dictSet_other _ _ _ _ hp, if_neg hp]
      omega
  · rw [dictGetD_dictSet_other _ _ _ _ hr, if_neg hr]
    by_cases hp : p = k
    · subst hp
      rw [dictGetD_dictSet_same, if_pos rfl]
      omega
    · rw [dictGetD_dictSet_other _ _ _ _ hp, if_neg hp]
      omega

theorem applyTransfers_getD (ts : List (String × String × Int))
    (net : List (String × Int)) (k : String) :
    dictGetD (applyTransfers net ts) k =
      dictGetD net k + paidBy ts k - receivedBy ts k := by
  induction ts generalizing net with
  | nil => simp [applyTransfers, paidBy, receivedBy]
  | cons t ts ih =>
    rw [show applyTransfers net (t :: ts)
        = applyTransfers (applyTransfer net t) ts from rfl,
      ih, applyTransfer_getD, paidBy_cons, receivedBy_cons]
    omega

theorem dictGetD_eq_of_mem {bal : List (String × Int)} {k : String} {v : Int}
    (hmem : (k, v) ∈ bal) (hnd : (bal.map Prod.fst).Nodup) :
    dictGetD bal k = v := by
  induction bal with
  | nil => cases hmem
  | cons x rest ih =>
    obtain ⟨k₀, v₀⟩ := x
    simp only [List.map_cons, List.nodup_cons] at hnd
    rcases List.mem_cons.mp hmem with heq | hmem'
    · injection heq with h1 h2
      subst h1
      subst h2
      simp [dictGetD]
    · have hk : k₀ ≠ k := by
        intro h
        exact hnd.1 (h ▸ List.mem_map_of_mem Prod.fst hmem')
      simp [dictGetD, hk, ih hmem' hnd.2]

/-! ## Sum decomposition lemmas -/

theorem sum_filter_pos_add_sum_filter_neg (l : List (String × Int)) :
    ((l.filter (fun kv => 0 < kv.2)).map Prod.snd).sum
      + ((l.filter (fun kv => kv.2 < 0)).map Prod.snd).sum
      = (l.map Prod.snd).sum := by
  induction l with
  | nil => rfl
  | cons x xs ih =>
    obtain ⟨k, v⟩ := x
    simp only [List.filter_cons, List.map_cons, List.sum_cons]
    rcases lt_trichotomy v 0 with h | h | h
    · have hp : ¬ (decide (0 < (k, v).2) = true) := by simp; omega
      have hn : decide ((k, v).2 < 0) = true := by simp [h]
      rw [if_neg hp, if_pos hn, List.map_cons, List.sum_cons]
      omega
    · have hp : ¬ (decide (0 < (k, v).2) = true) := by simp [h]
      have hn : ¬ (decide ((k, v).2 < 0) = true) := by simp [h]
      rw [if_neg hp, if_neg hn]
      omega
    · have hp : decide (0 < (k, v).2) = true := by simp [h]
      have hn : ¬ (decide ((k, v).2 < 0) = true) := by simp; omega
      rw [if_pos hp, if_neg hn, List.map_cons, List.sum_cons]
      omega

theorem sum_map_abs_of_neg (m : List (String × Int))
    (h : ∀ x ∈ m, x.2 < 0) :
    (m.map (fun kv => |kv.2|)).sum = -((m.map Prod.snd).sum) := by
  induction m with
  | nil => rfl
  | cons x xs ih =>
    simp only [List.map_cons, List.sum_cons]
    rw [abs_of_neg (h x (List.mem_cons_self _ _)),
      ih fun y hy => h y (List.mem_cons_of_mem _ hy)]
    omega

/-! ## Claim C2: transfer count bound -/

/-- C2: for every net-balance mapping with `N` entries of nonzero value,
`minimal_transfers` returns at most `N - 1` transfers (the embedded loop
is a total function, so the two-pointer loop terminates).  `N - 1` is
natural-number subtraction. -/
theorem minimal_transfers_count_le (bal : List (String × Int)) :
    (minimal_transfers bal).length ≤
      (bal.filter (fun kv => kv.2 ≠ 0)).length - 1 := by
  have hlen : (creditorsOf bal).length + (debtorsOf bal).length =
      (bal.filter (fun kv => kv.2 ≠ 0)).length := by
    unfold creditorsOf debtorsOf
    rw [List.length_insertionSort, List.length_insertionSort,
      List.length_map, List.length_map]
    induction bal with
    | nil => rfl
    | cons x xs ih =>
      obtain ⟨k, v⟩ := x
      simp only [List.filter_cons]
      rcases lt_trichotomy v 0 with h | h | h
      · have hp : ¬ (decide (0 < (k, v).2) = true) := by simp; omega
        have hn : decide ((k, v).2 < 0) = true := by simp [h]
        have hz : decide ((k, v).2 ≠ 0) = true := by simp; omega
        rw [if_neg hp, if_pos hn, if_pos hz, List.length_cons,
          List.length_cons]
        omega
      · have hp : ¬ (decide (0 < (k, v).2) = true) := by simp [h]
        have hn : ¬ (decide ((k, v).2 < 0) = true) := by simp [h]
        have hz : ¬ (decide ((k, v).2 ≠ 0) = true) := by simp [h]
        rw [if_neg hp, if_neg hn, if_neg hz]
        exact ih
      · have hp : decide (0 < (k, v).2) = true := by simp [h]
        have hn : ¬ (decide ((k, v).2 < 0) = true) := by simp; omega
        have hz : decide ((k, v).2 ≠ 0) = true := by simp; omega
        rw [if_pos hp, if_neg hn, if_pos hz, List.length_cons,
          List.length_cons]
        omega
  calc (minimal_transfers bal).length
      ≤ (creditorsOf bal).length + (debtorsOf bal).length - 1 :=
        settleLoop_length_le _ _
    _ = (bal.filter (fun kv => kv.2 ≠ 0)).length - 1 := by rw [hlen]

/-! ## Claim C1: the transfer plan settles a balanced net mapping -/

/-- C1 (amended): for every net-balance mapping with pairwise-distinct
person keys whose entries sum to zero, applying every transfer returned
by `minimal_transfers` (debiting each payer, crediting each receiver)
drives every entry of the mapping to exactly zero (hence within 0.01 of
zero). -/
theorem minimal_transfers_settles_balanced (bal : List (String × Int))
    (hkeys : (bal.map Prod.fst).Nodup)
    (hsum : (bal.map Prod.snd).sum = 0) :
    ∀ kv ∈ bal,
      dictGetD (applyTransfers bal (minimal_transfers bal)) kv.1 = 0 := by
  have hpc : (creditorsOf bal).Perm
      ((bal.filter (fun kv => 0 < kv.2)).map (fun kv => (kv.2, kv.1))) :=
    List.perm_insertionSort _ _
  have hpd : (debtorsOf bal).Perm
      ((bal.filter (fun kv => kv.2 < 0)).map (fun kv => (|kv.2|, kv.1))) :=
    List.perm_insertionSort _ _
  have hnc : ((creditorsOf bal).map Prod.snd).Perm
      ((bal.filter (fun kv => 0 < kv.2)).map Prod.fst) := by
    have := hpc.map Prod.snd
    simpa [List.map_map, Function.comp] using this
  have hndn : ((debtorsOf bal).map Prod.snd).Perm
      ((bal.filter (fun kv => kv.2 < 0)).map Prod.fst) := by
    have := hpd.map Prod.snd
    simpa [List.map_map, Function.comp] using this
  have hcpos : ∀ x ∈ creditorsOf bal, 0 < x.1 := by
    intro x hx
    obtain ⟨kv, hkv, rfl⟩ := List.mem_map.mp (hpc.mem_iff.mp hx)
    simpa using List.of_mem_filter hkv
  have hdpos : ∀ x ∈ debtorsOf bal, 0 < x.1 := by
    intro x hx
    obtain ⟨kv, hkv, rfl⟩ := List.mem_map.mp (hpd.mem_iff.mp hx)
    have : kv.2 < 0 := by simpa using List.of_mem_filter hkv
    simpa using abs_pos.mpr (ne_of_lt this)
  have hdisj : ∀ k, k ∈ (bal.filter (fun kv => 0 < kv.2)).map Prod.fst →
      k ∈ (bal.filter (fun kv => kv.2 < 0)).map Prod.fst → False := by
    intro k h1 h2
    obtain ⟨e1, he1, rfl⟩ := List.mem_map.mp h1
    obtain ⟨e2, he2, heq⟩ := List.mem_map.mp h2
    have hv1 : 0 < e1.2 := by simpa using List.of_mem_filter he1
    have hv2 : e2.2 < 0 := by simpa using List.of_mem_filter he2
    have : e2 = e1 := List.inj_on_of_nodup_map hkeys
      (List.mem_of_mem_filter he2) (List.mem_of_mem_filter he1) heq
    rw [this] at hv2
    omega
  have hnodupnames :
      (((creditorsOf bal) ++ (debtorsOf bal)).map Prod.snd).Nodup := by
    rw [List.map_append]
    refine ((hnc.append hndn).nodup_iff).mpr ?_
    rw [List.nodup_append]
    refine ⟨hkeys.sublist ((List.filter_sublist bal).map Prod.fst),
      hkeys.sublist ((List.filter_sublist bal).map Prod.fst), ?_⟩
    intro a ha hb
    exact hdisj a ha hb
  have hsum_c : ((creditorsOf bal).map Prod.fst).sum
      = ((bal.filter (fun kv => 0 < kv.2)).map Prod.snd).sum := by
    have := (hpc.map Prod.fst).sum_eq
    simpa [List.map_map, Function.comp] using this
  have hsum_d : ((debtorsOf bal).map Prod.fst).sum
      = -(((bal.filter (fun kv => kv.2 < 0)).map Prod.snd).sum) := by
    have h1 := (hpd.map Prod.fst).sum_eq
    have h2 : (((bal.filter (fun kv => kv.2 < 0)).map
        (fun kv => (|kv.2|, kv.1))).map Prod.fst)
        = (bal.filter (fun kv => kv.2 < 0)).map (fun kv => |kv.2|) := by
      simp [List.map_map, Function.comp]
    rw [h1, h2, sum_map_abs_of_neg]
    intro x hx
    simpa using List.of_mem_filter hx
  have hsums : ((creditorsOf bal).map Prod.fst).sum
      = ((debtorsOf bal).map Prod.fst).sum := by
    have hsplit := sum_filter_pos_add_sum_filter_neg bal
    rw [hsum_c, hsum_d]
    omega
  obtain ⟨ihr, ihp⟩ := settleLoop_settles (creditorsOf bal) (debtorsOf bal)
    hcpos hdpos hnodupnames hsums
  have hmtf : minimal_transfers bal
      = settleLoop (creditorsOf bal) (debtorsOf bal) := rfl
  intro kv hkv
  rw [applyTransfers_getD, dictGetD_eq_of_mem hkv hkeys, hmtf]
  rcases lt_trichotomy kv.2 0 with hneg | hzero | hpos
  · -- kv is a debtor entry: it pays exactly its magnitude, receives nothing
    have hmemd : (|kv.2|, kv.1) ∈ debtorsOf bal := by
      refine hpd.mem_iff.mpr (List.mem_map.mpr ⟨kv, ?_, rfl⟩)
      exact List.mem_filter.mpr ⟨hkv, by simpa using hneg⟩
    have hp := ihp _ hmemd
    dsimp only at hp
    have hnotc : kv.1 ∉ (creditorsOf bal).map Prod.snd := by
      intro hmem
      refine hdisj kv.1 (hnc.mem_iff.mp hmem) ?_
      exact List.mem_map_of_mem Prod.fst
        (List.mem_filter.mpr ⟨hkv, by simpa using hneg⟩)
    rw [hp, settleLoop_receivedBy_zero hnotc, abs_of_neg hneg]
    omega
  · -- kv is a zero entry: it is in neither list, so nothing touches it
    have hnotc : kv.1 ∉ (creditorsOf bal).map Prod.snd := by
      intro hmem
      obtain ⟨e, he, heq⟩ := List.mem_map.mp (hnc.mem_iff.mp hmem)
      have hv : 0 < e.2 := by simpa using List.of_mem_filter he
      have : e = kv := List.inj_on_of_nodup_map hkeys
        (List.mem_of_mem_filter he) hkv heq
      rw [this, hzero] at hv
      omega
    have hnotd : kv.1 ∉ (debtorsOf bal).map Prod.snd := by
      intro hmem
      obtain ⟨e, he, heq⟩ := List.mem_map.mp (hndn.mem_iff.mp hmem)
      have hv : e.2 < 0 := by simpa using List.of_mem_filter he
      have : e = kv := List.inj_on_of_nodup_map hkeys
        (List.mem_of_mem_filter he) hkv heq
      rw [this, hzero] at hv
      omega
    rw [settleLoop_receivedBy_zero hnotc, settleLoop_paidBy_zero hnotd,
      hzero]
    omega
  · -- kv is a creditor entry: it receives exactly its credit, pays nothing
    have hmemc : (kv.2, kv.1) ∈ creditorsOf bal := by
      refine hpc.mem_iff.mpr (List.mem_map.mpr ⟨kv, ?_, rfl⟩)
      exact List.mem_filter.mpr ⟨hkv, by simpa using hpos⟩
    have hr := ihr _ hmemc
    dsimp only at hr
    have hnotd : kv.1 ∉ (debtorsOf bal).map Prod.snd := by
      intro hmem
      refine hdisj kv.1 ?_ (hndn.mem_iff.mp hmem)
      exact List.mem_map_of_mem Prod.fst
        (List.mem_filter.mpr ⟨hkv, by simpa using hpos⟩)
    rw [hr, settleLoop_paidBy_zero hnotd]
    omega

/-- C1 counterexample: for the (unbalanced) net mapping `{alice: 5.00}`
— which `compute_balances` produces from the single debt row
`{creditor: "me", debtor: "alice", amount: 5.00}` — `minimal_transfers`
returns no transfers at all and alice's entry stays at 5.00, not within
0.01 of zero.  So the claim is false for arbitrary net mappings. -/
theorem minimal_transfers_not_settling_unbalanced :
    compute_balances [⟨"me", "alice", 500⟩] = [("alice", 500)] ∧
    minimal_transfers [("alice", 500)] = [] ∧
    dictGetD (applyTransfers [("alice", 500)]
      (minimal_transfers [("alice", 500)])) "alice" = 500 ∧
    ¬ |dictGetD (applyTransfers [("alice", 500)]
      (minimal_transfers [("alice", 500)])) "alice"| < 1 := by
  have h : minimal_transfers [("alice", 500)] = [] := by
    have h1 : creditorsOf [("alice", 500)] = [(500, "alice")] := by decide
    have h2 : debtorsOf [("alice", 500)] = [] := by decide
    rw [minimal_transfers, h1, h2, settleLoop_nil_right]
  refine ⟨by decide, h, ?_, ?_⟩ <;> rw [h] <;> decide

/-- Witness for `minimal_transfers_settles_balanced` at the concrete
balanced mapping `{alice: 5.00, bob: -5.00}`. -/
theorem minimal_transfers_settles_balanced_witness :
    (([("alice", 500), ("bob", -500)] : List (String × Int)).map
      Prod.fst).Nodup ∧
    (([("alice", 500), ("bob", -500)] : List (String × Int)).map
      Prod.snd).sum = 0 ∧
    ∀ kv ∈ ([("alice", 500), ("bob", -500)] : List (String × Int)),
      dictGetD (applyTransfers [("alice", 500), ("bob", -500)]
        (minimal_transfers [("alice", 500), ("bob", -500)])) kv.1 = 0 :=
  ⟨by decide, by decide,
    minimal_transfers_settles_balanced _ (by decide) (by decide)⟩

/-! ## Claim C9: ordering of the creditor and debtor lists -/

/-- C9 (amended): the creditor and debtor lists are each sorted by
amount descending with ties broken by person handle *descending* in
code-point order (Python compares the `[amount, person]` lists
lexicographically and `reverse=True` reverses both components), and each
is a permutation of the corresponding filtered entries of the input
mapping — a deterministic total order. -/
theorem creditors_debtors_sorted (bal : List (String × Int)) :
    (creditorsOf bal).Sorted descLe ∧ (debtorsOf bal).Sorted descLe ∧
    (creditorsOf bal).Perm
      ((bal.filter (fun kv => 0 < kv.2)).map (fun kv => (kv.2, kv.1))) ∧
    (debtorsOf bal).Perm
      ((bal.filter (fun kv => kv.2 < 0)).map (fun kv => (|kv.2|, kv.1))) :=
  ⟨List.sorted_insertionSort _ _, List.sorted_insertionSort _ _,
    List.perm_insertionSort _ _, List.perm_insertionSort _ _⟩

/-- C9 counterexample: with two creditors of equal amount 5.00 and
handles "a" and "b", the creditor list puts "b" first — equal amounts
are ordered by handle descending, not ascending ("a" precedes "b" in
code-point order). -/
theorem creditors_tie_order_counterexample :
    creditorsOf [("a", 500), ("b", 500)] = [(500, "b"), (500, "a")] ∧
    creditorsOf [("a", 500), ("b", 500)] ≠ [(500, "a"), (500, "b")] ∧
    strLe "a" "b" ∧ "a" ≠ "b" :=
  ⟨by decide, by decide, by decide, by decide⟩

/-! ## Claim C3: per-record accumulation of `compute_balances` -/

/-- Association-list lookup (`k in dict` / `dict[k]` combined):
`some v` for the first entry with key `k`, else `none`. -/
def keyVal? (d : List (String × Int)) (k : String) : Option Int :=
  match d with
  | [] => none
  | (k₀, v₀) :: rest => if k₀ = k then some v₀ else keyVal? rest k

/-- The contribution of one debt row to person `k`'s net balance, stated
the way the spec describes it: creditor `"me"` raises the debtor's net
by the amount; otherwise debtor `"me"` lowers the creditor's net; a
third-party row lowers the debtor's and raises the creditor's net. -/
def rowContrib (row : DebtRow) (k : String) : Int :=
  if pyLower row.creditor = "me" then
    (if pyLower row.debtor = k then row.amount else 0)
  else if pyLower row.debtor = "me" then
    (if pyLower row.creditor = k then -row.amount else 0)
  else
    (if pyLower row.debtor = k then -row.amount else 0) +
      (if pyLower row.creditor = k then row.amount else 0)

/-- Person `k`'s net balance accumulated record by record, per the
spec's description. -/
def netContrib (rows : List DebtRow) (k : String) : Int :=
  (rows.map (fun row => rowContrib row k)).sum

theorem dictGetD_eq_zero_of_not_mem {d : List (String × Int)} {k : String}
    (h : k ∉ d.map Prod.fst) : dictGetD d k = 0 := by
  induction d with
  | nil => rfl
  | cons x rest ih =>
    obtain ⟨k₀, v₀⟩ := x
    have hne : k₀ ≠ k := by
      intro he
      exact h (he ▸ List.mem_cons_self _ _)
    simp only [dictGetD, if_neg hne]
    exact ih fun hm => h (List.mem_cons_of_mem _ hm)

theorem keyVal?_eq_none {d : List (String × Int)} {k : String}
    (h : k ∉ d.map Prod.fst) : keyVal? d k = none := by
  induction d with
  | nil => rfl
  | cons x rest ih =>
    obtain ⟨k₀, v₀⟩ := x
    have hne : k₀ ≠ k := by
      intro he
      exact h (he ▸ List.mem_cons_self _ _)
    simp only [keyVal?, if_neg hne]
    exact ih fun hm => h (List.mem_cons_of_mem _ hm)

theorem keyVal?_eq_some_getD {d : List (String × Int)} {k : String}
    (h : k ∈ d.map Prod.fst) : keyVal? d k = some (dictGetD d k) := by
  induction d with
  | nil => cases h
  | cons x rest ih =>
    obtain ⟨k₀, v₀⟩ := x
    by_cases he : k₀ = k
    · simp [keyVal?, dictGetD, he]
    · rcases List.mem_cons.mp h with h0 | h0
      · exact absurd h0.symm he
      · simp only [keyVal?, dictGetD, if_neg he]
        exact ih h0

theorem mem_keys_dictSet {d : List (String × Int)} {k k' : String} {v : Int} :
    k' ∈ (dictSet d k v).map Prod.fst ↔ k' ∈ d.map Prod.fst ∨ k' = k := by
  induction d with
  | nil => simp [dictSet]
  | cons x rest ih =>
    obtain ⟨k₀, v₀⟩ := x
    by_cases h : k₀ = k
    · subst h
      by_cases h' : k' = k₀ <;> simp [dictSet, h', eq_comm]
    · simp only [dictSet, if_neg h, List.map_cons, List.mem_cons, ih]
      tauto

theorem nodup_keys_dictSet {d : List (String × Int)} {k : String} {v : Int}
    (h : (d.map Prod.fst).Nodup) : ((dictSet d k v).map Prod.fst).Nodup := by
  induction d with
  | nil => simp [dictSet]
  | cons x rest ih =>
    obtain ⟨k₀, v₀⟩ := x
    simp only [List.map_cons, List.nodup_cons] at h
    by_cases he : k₀ = k
    · subst he
      have hset : dictSet ((k₀, v₀) :: rest) k₀ v = (k₀, v) :: rest := by
        simp [dictSet]
      rw [hset, List.map_cons, List.nodup_cons]
      exact h
    · simp only [dictSet, if_neg he, List.map_cons, List.nodup_cons]
      refine ⟨?_, ih h.2⟩
      intro hm
      rcases mem_keys_dictSet.mp hm with hm' | hm'
      · exact h.1 hm'
      · exact he hm'

theorem balanceStep_getD (net : List (String × Int)) (row : DebtRow)
    (k : String) :
    dictGetD (balanceStep net row) k = dictGetD net k + rowContrib row k := by
  unfold balanceStep rowContrib
  by_cases h1 : pyLower row.creditor = "me"
  · rw [if_pos h1, if_pos h1]
    by_cases h2 : pyLower row.debtor = k
    · rw [if_pos h2, h2, dictGetD_dictSet_same]
    · rw [if_neg h2, dictGetD_dictSet_other _ _ _ _ h2]
      omega
  · rw [if_neg h1, if_neg h1]
    by_cases h2 : pyLower row.debtor = "me"
    · rw [if_pos h2, if_pos h2]
      by_cases h3 : pyLower row.creditor = k
      · rw [if_pos h3, h3, dictGetD_dictSet_same]
        omega
      · rw [if_neg h3, dictGetD_dictSet_other _ _ _ _ h3]
        omega
    · rw [if_neg h2, if_neg h2]
      by_cases h3 : pyLower row.creditor = k
      · rw [if_pos h3, h3, dictGetD_dictSet_same]
        by_cases h4 : pyLower row.debtor = k
        · rw [if_pos h4, h4, dictGetD_dictSet_same]
          omega
        · rw [if_neg h4, dictGetD_dictSet_other _ _ _ _ (h3 ▸ h4)]
          omega
      · rw [if_neg h3, dictGetD_dictSet_other _ _ _ _ h3]
        by_cases h4 : pyLower row.debtor = k
        · rw [if_pos h4, h4, dictGetD_dictSet_same]
          omega
        · rw [if_neg h4, dictGetD_dictSet_other _ _ _ _ h4]
          omega

theorem foldl_balanceStep_getD (rows : List DebtRow)
    (net : List (String × Int)) (k : String) :
    dictGetD (rows.foldl balanceStep net) k
      = dictGetD net k + netContrib rows k := by
  induction rows generalizing net with
  | nil => simp [netContrib]
  | cons row rows ih =>
    rw [List.foldl_cons, ih, balanceStep_getD]
    simp only [netContrib, List.map_cons, List.sum_cons]
    omega

theorem computeNet_keys_nodup (rows : List DebtRow) :
    ((computeNet rows).map Prod.fst).Nodup := by
  have : ∀ net : List (String × Int), (net.map Prod.fst).Nodup →
      ((rows.foldl balanceStep net).map Prod.fst).Nodup := by
    induction rows with
    | nil => intro net h; exact h
    | cons row rows ih =>
      intro net h
      rw [List.foldl_cons]
      refine ih _ ?_
      unfold balanceStep
      dsimp only
      split_ifs <;>
        first
          | exact nodup_keys_dictSet h
          | exact nodup_keys_dictSet (nodup_keys_dictSet h)
  exact this [] (by simp)

theorem keys_filter_subset {d : List (String × Int)} {k : String}
    (h : k ∈ (d.filter (fun kv => 1 ≤ |kv.2|)).map Prod.fst) :
    k ∈ d.map Prod.fst := by
  obtain ⟨e, he, rfl⟩ := List.mem_map.mp h
  exact List.mem_map_of_mem Prod.fst (List.mem_of_mem_filter he)

theorem keyVal?_filter_of_nodup {d : List (String × Int)}
    (hnd : (d.map Prod.fst).Nodup) (k : String) :
    keyVal? (d.filter (fun kv => 1 ≤ |kv.2|)) k =
      match keyVal? d k with
      | some v => if 1 ≤ |v| then some v else none
      | none => none := by
  induction d with
  | nil => rfl
  | cons x rest ih =>
    obtain ⟨k₀, v₀⟩ := x
    simp only [List.map_cons, List.nodup_cons] at hnd
    by_cases he : k₀ = k
    · subst he
      simp only [keyVal?, if_pos rfl, List.filter_cons]
      by_cases hv : 1 ≤ |v₀|
      · rw [if_pos (by simpa using hv)]
        simp [keyVal?, hv]
      · rw [if_neg (by simpa using hv)]
        have : k₀ ∉ (rest.filter (fun kv => 1 ≤ |kv.2|)).map Prod.fst :=
          fun hm => hnd.1 (keys_filter_subset hm)
        rw [keyVal?_eq_none this]
        simp [hv]
    · simp only [keyVal?, if_neg he, List.filter_cons]
      by_cases hv : 1 ≤ |v₀|
      · rw [if_pos (by simpa using hv)]
        simp only [keyVal?, if_neg he]
        exact ih hnd.2
      · rw [if_neg (by simpa using hv)]
        exact ih hnd.2

/-- C3: for every list of debt rows and every person `k`, the entry for
`k` in the mapping returned by `compute_balances` is exactly the
per-record accumulation the spec describes (creditor `"me"` raises the
debtor's net by the amount, debtor `"me"` lowers the creditor's net,
a third-party row lowers the debtor's and raises the creditor's net),
with entries of absolute value below 0.01 dropped; all values are
cent-valued so rounding to 2 decimal places is the identity. -/
theorem compute_balances_spec (rows : List DebtRow) (k : String) :
    keyVal? (compute_balances rows) k =
      if 1 ≤ |netContrib rows k| then some (netContrib rows k) else none := by
  unfold compute_balances
  rw [keyVal?_filter_of_nodup (computeNet_keys_nodup rows)]
  by_cases hmem : k ∈ (computeNet rows).map Prod.fst
  · rw [keyVal?_eq_some_getD hmem]
    have : dictGetD (computeNet rows) k = netContrib rows k := by
      have := foldl_balanceStep_getD rows [] k
      simpa [computeNet, dictGetD] using this
    rw [this]
  · rw [keyVal?_eq_none hmem]
    have hz : netContrib rows k = 0 := by
      have h1 := foldl_balanceStep_getD rows [] k
      have h0 : dictGetD (computeNet rows) k = 0 :=
        dictGetD_eq_zero_of_not_mem hmem
      rw [show computeNet rows = rows.foldl balanceStep [] from rfl] at h0
      rw [h0] at h1
      simpa [dictGetD] using h1.symm
    rw [hz]
    simp

/-! ## Claim C10: the owner token never appears in balances or transfers -/

theorem foldl_balanceStep_me_free :
    ∀ (rows : List DebtRow) (net : List (String × Int)),
      (∀ row ∈ rows,
        ¬ (pyLower row.creditor = "me" ∧ pyLower row.debtor = "me")) →
      "me" ∉ net.map Prod.fst →
      "me" ∉ (rows.foldl balanceStep net).map Prod.fst := by
  intro rows
  induction rows with
  | nil => intro net _ h0; exact h0
  | cons row rest ih =>
    intro net hr h0
    rw [List.foldl_cons]
    refine ih _ (fun r h' => hr r (List.mem_cons_of_mem _ h')) ?_
    have hrow := hr row (List.mem_cons_self _ _)
    unfold balanceStep
    dsimp only
    by_cases h1 : pyLower row.creditor = "me"
    · rw [if_pos h1]
      intro hm
      rcases mem_keys_dictSet.mp hm with hm' | hm'
      · exact h0 hm'
      · exact hrow ⟨h1, hm'.symm⟩
    · rw [if_neg h1]
      by_cases h2 : pyLower row.debtor = "me"
      · rw [if_pos h2]
        intro hm
        rcases mem_keys_dictSet.mp hm with hm' | hm'
        · exact h0 hm'
        · exact h1 hm'.symm
      · rw [if_neg h2]
        intro hm
        rcases mem_keys_dictSet.mp hm with hm' | hm'
        · rcases mem_keys_dictSet.mp hm' with hm'' | hm''
          · exact h0 hm''
          · exact h2 hm''.symm
        · exact h1 hm'.symm

/-- C10 (amended): for every list of debt rows in which no single row
has *both* creditor and debtor lowercasing to the owner token `"me"`,
`"me"` never appears as a key of the mapping returned by
`compute_balances`, and no transfer produced by `minimal_transfers` over
that mapping has `"me"` as payer or receiver.  (A degenerate
`me → me` row does write the key `"me"`; see the counterexample.) -/
theorem owner_never_in_balances (rows : List DebtRow)
    (h : ∀ row ∈ rows,
      ¬ (pyLower row.creditor = "me" ∧ pyLower row.debtor = "me")) :
    "me" ∉ (compute_balances rows).map Prod.fst ∧
    ∀ t ∈ minimal_transfers (compute_balances rows),
      t.1 ≠ "me" ∧ t.2.1 ≠ "me" := by
  have hnet : "me" ∉ (computeNet rows).map Prod.fst :=
    foldl_balanceStep_me_free rows [] h (by simp)
  have hbal : "me" ∉ (compute_balances rows).map Prod.fst := by
    intro hm
    exact hnet (keys_filter_subset hm)
  refine ⟨hbal, ?_⟩
  intro t ht
  rw [show minimal_transfers (compute_balances rows)
      = settleLoop (creditorsOf (compute_balances rows))
        (debtorsOf (compute_balances rows)) from rfl] at ht
  have hnames := settleLoop_names _ _ t ht
  have hkeyd : ∀ x : String,
      x ∈ (debtorsOf (compute_balances rows)).map Prod.snd →
      x ∈ (compute_balances rows).map Prod.fst := by
    intro x hx
    have hperm : ((debtorsOf (compute_balances rows)).map Prod.snd).Perm
        (((compute_balances rows).filter (fun kv => kv.2 < 0)).map
          Prod.fst) := by
      have := (List.perm_insertionSort descLe
        (((compute_balances rows).filter (fun kv => kv.2 < 0)).map
          (fun kv => (|kv.2|, kv.1)))).map Prod.snd
      simpa [debtorsOf, List.map_map, Function.comp] using this
    obtain ⟨e, he, rfl⟩ := List.mem_map.mp (hperm.mem_iff.mp hx)
    exact List.mem_map_of_mem Prod.fst (List.mem_of_mem_filter he)
  have hkeyc : ∀ x : String,
      x ∈ (creditorsOf (compute_balances rows)).map Prod.snd →
      x ∈ (compute_balances rows).map Prod.fst := by
    intro x hx
    have hperm : ((creditorsOf (compute_balances rows)).map Prod.snd).Perm
        (((compute_balances rows).filter (fun kv => 0 < kv.2)).map
          Prod.fst) := by
      have := (List.perm_insertionSort descLe
        (((compute_balances rows).filter (fun kv => 0 < kv.2)).map
          (fun kv => (kv.2, kv.1)))).map Prod.snd
      simpa [creditorsOf, List.map_map, Function.comp] using this
    obtain ⟨e, he, rfl⟩ := List.mem_map.mp (hperm.mem_iff.mp hx)
    exact List.mem_map_of_mem Prod.fst (List.mem_of_mem_filter he)
  constructor
  · intro he
    exact hbal (he ▸ hkeyd t.1 hnames.1)
  · intro he
    exact hbal (he ▸ hkeyc t.2.1 hnames.2)

/-- C10 counterexample: a row whose creditor *and* debtor are both the
owner token makes `"me"` a key of the output mapping, with net 5.00. -/
theorem owner_in_balances_counterexample :
    "me" ∈ (compute_balances [⟨"me", "me", 500⟩]).map Prod.fst ∧
    compute_balances [⟨"me", "me", 500⟩] = [("me", 500)] :=
  ⟨by decide, by decide⟩

/-- Witness for `owner_never_in_balances` at one ordinary debt row. -/
theorem owner_never_in_balances_witness :
    (∀ row ∈ [DebtRow.mk "me" "alice" 500],
      ¬ (pyLower row.creditor = "me" ∧ pyLower row.debtor = "me")) ∧
    ("me" ∉ (compute_balances [DebtRow.mk "me" "alice" 500]).map Prod.fst ∧
      ∀ t ∈ minimal_transfers (compute_balances [DebtRow.mk "me" "alice" 500]),
        t.1 ≠ "me" ∧ t.2.1 ≠ "me") :=
  ⟨by decide, owner_never_in_balances _ (by decide)⟩

/-! ## `database.py`: the `debts` table and `Database.clear_debt`

The `debts` table is a list of records kept in `created_at` order,
oldest first (the order `ORDER BY created_at` yields).  Schema
invariants used as hypotheses: `amount > 0` (CHECK constraint) and
distinct `id`s (INTEGER PRIMARY KEY). -/

/-- A row of the `debts` table. -/
structure DebtRec where
  id : Nat
  creditor : String
  debtor : String
  amount : Int
  settled : Bool
  deriving DecidableEq, Repr

/-- The fetch filter of `clear_debt`:
`WHERE settled = 0 AND (creditor = ? OR debtor = ?)`. -/
def debtMatches (p : String) (r : DebtRec) : Bool :=
  !r.settled && (r.creditor == p || r.debtor == p)

/-- One SQL `UPDATE debts SET ... WHERE id = ?` statement. -/
inductive DebtUpdate where
  | settle (id : Nat)
  | setAmount (id : Nat) (amount : Int)
  deriving DecidableEq, Repr

/-- Effect of one update statement on one row. -/
def applyUpd1 (r : DebtRec) (u : DebtUpdate) : DebtRec :=
  match u with
  | .settle i => if r.id = i then { r with settled := true } else r
  | .setAmount i a => if r.id = i then { r with amount := a } else r

/-- Effect of one update statement on the whole table. -/
def applyUpdate (table : List DebtRec) (u : DebtUpdate) : List DebtRec :=
  table.map (fun r => applyUpd1 r u)

/-- The settlement loop of `clear_debt` over the fetched rows, returning
the cleared total and the update statements issued, in order.
`remaining = none` means "no cap: settle everything". -/
def clearLoop : List DebtRec → Option Int → Int × List DebtUpdate
  | [], _ => (0, [])
  | r :: rest, none =>
    let res := clearLoop rest none
    (r.amount + res.1, .settle r.id :: res.2)
  | r :: rest, some rem =>
    if rem ≤ 0 then (0, [])
    else if rem ≥ r.amount then
      let res := clearLoop rest (some (rem - r.amount))
      (r.amount + res.1, .settle r.id :: res.2)
    else
      let res := clearLoop rest (some 0)
      (rem + res.1, .setAmount r.id (r.amount - rem) :: res.2)

/-- `Database.clear_debt`: fetch the matching unsettled rows oldest
first; `None` when nothing matches; otherwise run the loop, apply its
updates and return `cleared` when positive, else `None`
(`round(cleared, 2)` is the identity on cents). -/
def clear_debt (table : List DebtRec) (person : String)
    (amount : Option Int) : List DebtRec × Option Int :=
  let p := pyLower person
  let rows := table.filter (debtMatches p)
  if rows.isEmpty then (table, none)
  else
    let res := clearLoop rows amount
    (res.2.foldl applyUpdate table, if 0 < res.1 then some res.1 else none)

/-- A person's outstanding total: the summed amounts of the unsettled
records naming them as creditor or debtor. -/
def outstanding (table : List DebtRec) (p : String) : Int :=
  ((table.filter (debtMatches p)).map (fun r => r.amount)).sum

/-- The id a statement updates. -/
def updId : DebtUpdate → Nat
  | .settle i => i
  | .setAmount i _ => i

/-! ### Lemmas about `clearLoop` -/

theorem clearLoop_zero (rows : List DebtRec) :
    clearLoop rows (some 0) = (0, []) := by
  cases rows <;> simp [clearLoop]

theorem clearLoop_cleared_none (rows : List DebtRec) :
    (clearLoop rows none).1 = (rows.map (fun r => r.amount)).sum := by
  induction rows with
  | nil => rfl
  | cons r rest ih => simp [clearLoop, ih]

theorem clearLoop_cleared_some (rows : List DebtRec) (a : Int) (ha : 0 ≤ a)
    (hpos : ∀ r ∈ rows, 0 < r.amount) :
    (clearLoop rows (some a)).1
      = min a ((rows.map (fun r => r.amount)).sum) := by
  induction rows generalizing a with
  | nil =>
    simp [clearLoop]
    omega
  | cons r rest ih =>
    have hr : 0 < r.amount := hpos r (List.mem_cons_self _ _)
    have hrest : ∀ x ∈ rest, 0 < x.amount :=
      fun x hx => hpos x (List.mem_cons_of_mem _ hx)
    have hsum : 0 ≤ (rest.map (fun x => x.amount)).sum :=
      List.sum_nonneg fun v hv => by
        obtain ⟨y, hy, rfl⟩ := List.mem_map.mp hv
        exact le_of_lt (hrest y hy)
    by_cases h0 : a ≤ 0
    · have ha0 : a = 0 := le_antisymm h0 ha
      subst ha0
      rw [clearLoop_zero]
      simp only [List.map_cons, List.sum_cons]
      omega
    · by_cases h1 : a ≥ r.amount
      · simp only [clearLoop, if_neg h0, if_pos h1]
        rw [ih (a - r.amount) (by omega) hrest]
        simp only [List.map_cons, List.sum_cons]
        omega
      · simp only [clearLoop, if_neg h0, if_neg h1, clearLoop_zero]
        simp only [List.map_cons, List.sum_cons]
        omega

/-- Full characterisation of the loop on a positive budget strictly
below the outstanding total: it settles an oldest-first block of the
fetched rows and, when the budget does not fall exactly on a record
boundary, reduces the next record by the leftover — clearing exactly
the requested amount. -/
theorem clearLoop_char (rows : List DebtRec) (a : Int) (ha : 0 < a)
    (hpos : ∀ r ∈ rows, 0 < r.amount)
    (hlt : a < (rows.map (fun r => r.amount)).sum) :
    (clearLoop rows (some a)).1 = a ∧
    ((∃ k, k ≤ rows.length ∧
        (((rows.take k).map (fun r => r.amount)).sum = a ∧
          (clearLoop rows (some a)).2
            = (rows.take k).map (fun r => DebtUpdate.settle r.id))) ∨
      (∃ k, ∃ r₀ : DebtRec,
        rows.drop k = r₀ :: rows.drop (k + 1) ∧
        ((rows.take k).map (fun r => r.amount)).sum < a ∧
        a < ((rows.take k).map (fun r => r.amount)).sum + r₀.amount ∧
        (clearLoop rows (some a)).2
          = (rows.take k).map (fun r => DebtUpdate.settle r.id)
            ++ [DebtUpdate.setAmount r₀.id
                (r₀.amount
                  - (a - ((rows.take k).map (fun r => r.amount)).sum))])) := by
  induction rows generalizing a with
  | nil =>
    exfalso
    simp only [List.map_nil, List.sum_nil] at hlt
    omega
  | cons r rest ih =>
    have hr : 0 < r.amount := hpos r (List.mem_cons_self _ _)
    have hrest : ∀ x ∈ rest, 0 < x.amount :=
      fun x hx => hpos x (List.mem_cons_of_mem _ hx)
    have h0 : ¬ a ≤ 0 := by omega
    by_cases h1 : a ≥ r.amount
    · -- the head record is fully settled
      simp only [clearLoop, if_neg h0, if_pos h1]
      by_cases heq : a = r.amount
      · -- the budget lands exactly on the head record
        rw [show a - r.amount = 0 from by omega, clearLoop_zero]
        refine ⟨by omega, Or.inl ⟨1, ?_, ?_, ?_⟩⟩
        · simp
        · simp
          omega
        · simp
      · -- strictly more budget than the head record
        have ha' : 0 < a - r.amount := by omega
        have hlt' : a - r.amount < (rest.map (fun x => x.amount)).sum := by
          simp only [List.map_cons, List.sum_cons] at hlt
          omega
        obtain ⟨hc, hch⟩ := ih (a - r.amount) ha' hrest hlt'
        refine ⟨by omega, ?_⟩
        rcases hch with ⟨k, hk, hks, hku⟩ | ⟨k, r₀, hk, hks1, hks2, hku⟩
        · refine Or.inl ⟨k + 1, by simpa using Nat.succ_le_succ hk, ?_, ?_⟩
          · simp only [List.take_succ_cons, List.map_cons, List.sum_cons]
            omega
          · simp only [List.take_succ_cons, List.map_cons]
            rw [hku]
        · refine Or.inr ⟨k + 1, r₀, ?_, ?_, ?_, ?_⟩
          · simpa using hk
          · simp only [List.take_succ_cons, List.map_cons, List.sum_cons]
            omega
          · simp only [List.take_succ_cons, List.map_cons, List.sum_cons]
            omega
          · simp only [List.take_succ_cons, List.map_cons, List.cons_append]
            rw [hku]
            have harg : r₀.amount
                - ((a - r.amount)
                  - ((rest.take k).map (fun r => r.amount)).sum)
                = r₀.amount
                - (a - (r.amount
                  + ((rest.take k).map (fun r => r.amount)).sum)) := by
              omega
            rw [harg]
            simp
    · -- the budget is smaller than the head record: reduce it and stop
      simp only [clearLoop, if_neg h0, if_neg h1, clearLoop_zero]
      refine ⟨by omega, Or.inr ⟨0, r, by simp, by simp; omega, ?_, ?_⟩⟩
      · simp
        omega
      · simp

/-! ### Applying the issued updates to the table -/

theorem foldl_applyUpdate_eq_map (us : List DebtUpdate)
    (table : List DebtRec) :
    us.foldl applyUpdate table = table.map (fun r => us.foldl applyUpd1 r) := by
  induction us generalizing table with
  | nil => simp
  | cons u us ih =>
    rw [List.foldl_cons, ih]
    simp [applyUpdate, List.map_map, Function.comp, List.foldl_cons]

theorem applyUpd1_id {r : DebtRec} {u : DebtUpdate} (h : updId u ≠ r.id) :
    applyUpd1 r u = r := by
  cases u <;>
    · simp only [applyUpd1, updId] at h ⊢
      rw [if_neg fun he => h he.symm]

theorem foldl_applyUpd1_skip {us : List DebtUpdate} {r : DebtRec}
    (h : ∀ u ∈ us, updId u ≠ r.id) : us.foldl applyUpd1 r = r := by
  induction us with
  | nil => rfl
  | cons u us ih =>
    rw [List.foldl_cons, applyUpd1_id (h u (List.mem_cons_self _ _))]
    exact ih fun v hv => h v (List.mem_cons_of_mem _ hv)

theorem foldl_settles_of_mem {rs : List DebtRec} {r : DebtRec}
    (hnd : (rs.map (fun x => x.id)).Nodup) (hr : r ∈ rs) :
    (rs.map (fun x => DebtUpdate.settle x.id)).foldl applyUpd1 r
      = { r with settled := true } := by
  induction rs with
  | nil => cases hr
  | cons x rest ih =>
    simp only [List.map_cons, List.nodup_cons] at hnd
    rcases List.mem_cons.mp hr with rfl | hr'
    · rw [List.map_cons, List.foldl_cons,
        show applyUpd1 r (DebtUpdate.settle r.id) = { r with settled := true }
          from by simp [applyUpd1]]
      refine foldl_applyUpd1_skip ?_
      intro u hu
      obtain ⟨y, hy, rfl⟩ := List.mem_map.mp hu
      simp only [updId]
      intro he
      exact hnd.1 (by rw [← he]; exact List.mem_map_of_mem (fun z => z.id) hy)
    · rw [List.map_cons, List.foldl_cons, applyUpd1_id ?hne]
      · exact ih hnd.2 hr'
      case hne =>
        simp only [updId]
        intro he
        exact hnd.1 (by rw [he]; exact List.mem_map_of_mem (fun z => z.id) hr')

theorem foldl_applyUpd1_amount_pos {us : List DebtUpdate} {r : DebtRec}
    (hpos : 0 < r.amount)
    (hus : ∀ i b, DebtUpdate.setAmount i b ∈ us → 0 < b) :
    0 < (us.foldl applyUpd1 r).amount := by
  induction us generalizing r with
  | nil => exact hpos
  | cons u us ih =>
    rw [List.foldl_cons]
    refine ih ?_ fun i b hb => hus i b (List.mem_cons_of_mem _ hb)
    cases u with
    | settle i =>
      by_cases h : r.id = i <;> simp [applyUpd1, h, hpos]
    | setAmount i b =>
      by_cases h : r.id = i
      · simpa [applyUpd1, h] using hus i b (List.mem_cons_self _ _)
      · simpa [applyUpd1, h] using hpos

/-! ### Outstanding totals as indicator sums -/

theorem outstanding_eq (table : List DebtRec) (p : String) :
    outstanding table p
      = (table.map (fun r => if debtMatches p r then r.amount else 0)).sum := by
  induction table with
  | nil => rfl
  | cons r rest ih =>
    by_cases h : debtMatches p r = true
    · simp only [outstanding, List.filter_cons, if_pos h, List.map_cons,
        List.sum_cons] at ih ⊢
      rw [ih]
    · simp only [outstanding, List.filter_cons, if_neg h, List.map_cons,
        List.sum_cons] at ih ⊢
      rw [ih]
      omega

theorem sum_map_eq_sum_filter {table : List DebtRec} {q : DebtRec → Bool}
    {f : DebtRec → Int} (h0 : ∀ r ∈ table, q r = false → f r = 0) :
    (table.map f).sum = ((table.filter q).map f).sum := by
  induction table with
  | nil => rfl
  | cons r rest ih =>
    simp only [List.map_cons, List.sum_cons, List.filter_cons]
    by_cases h : q r = true
    · rw [if_pos h, List.map_cons, List.sum_cons,
        ih fun x hx hq => h0 x (List.mem_cons_of_mem _ hx) hq]
    · rw [if_neg h,
        h0 r (List.mem_cons_self _ _) (by simpa using h),
        ih fun x hx hq => h0 x (List.mem_cons_of_mem _ hx) hq, zero_add]

/-! ## Claim C4: partial settlement -/

/-- C4: for every debts table satisfying the schema invariants (distinct
primary-key ids, positive amounts), every person and every positive
amount strictly below that person's outstanding total, `clear_debt`
returns the requested amount as the cleared total, lowers the person's
outstanding total by exactly that amount, keeps every stored amount
strictly positive, and consumes the matching records oldest-first: the
updates it issues settle an oldest-first block of the fetched records
and at most reduce the one record after the block. -/
theorem clear_debt_partial_spec (table : List DebtRec) (person : String)
    (a : Int)
    (hids : (table.map (fun r => r.id)).Nodup)
    (hamt : ∀ r ∈ table, 0 < r.amount)
    (ha : 0 < a)
    (hlt : a < outstanding table (pyLower person)) :
    (clear_debt table person (some a)).2 = some a ∧
    outstanding (clear_debt table person (some a)).1 (pyLower person)
      = outstanding table (pyLower person) - a ∧
    (∀ r ∈ (clear_debt table person (some a)).1, 0 < r.amount) ∧
    ((∃ k, k ≤ (table.filter (debtMatches (pyLower person))).length ∧
        ((((table.filter (debtMatches (pyLower person))).take k).map
            (fun r => r.amount)).sum = a ∧
          (clearLoop (table.filter (debtMatches (pyLower person)))
              (some a)).2
            = ((table.filter (debtMatches (pyLower person))).take k).map
                (fun r => DebtUpdate.settle r.id))) ∨
      (∃ k, ∃ r₀ : DebtRec,
        (table.filter (debtMatches (pyLower person))).drop k
          = r₀ :: (table.filter (debtMatches (pyLower person))).drop (k + 1) ∧
        (((table.filter (debtMatches (pyLower person))).take k).map
            (fun r => r.amount)).sum < a ∧
        a < (((table.filter (debtMatches (pyLower person))).take k).map
            (fun r => r.amount)).sum + r₀.amount ∧
        (clearLoop (table.filter (debtMatches (pyLower person)))
            (some a)).2
          = ((table.filter (debtMatches (pyLower person))).take k).map
              (fun r => DebtUpdate.settle r.id)
            ++ [DebtUpdate.setAmount r₀.id
                (r₀.amount
                  - (a - (((table.filter (debtMatches (pyLower person))).take
                      k).map (fun r => r.amount)).sum))])) := by
  unfold outstanding at hlt
  set p := pyLower person with hpdef
  set rows := table.filter (debtMatches p) with hrowsdef
  have hrows_pos : ∀ r ∈ rows, 0 < r.amount := fun r hr =>
    hamt r (List.mem_of_mem_filter hr)
  have hrows_ids : (rows.map (fun r => r.id)).Nodup :=
    hids.sublist ((List.filter_sublist table).map _)
  have hrows_match : ∀ r ∈ rows, debtMatches p r = true := by
    intro r hr
    rw [hrowsdef] at hr
    exact List.of_mem_filter hr
  obtain ⟨hcl, hch⟩ := clearLoop_char rows a ha hrows_pos hlt
  have hnonempty : ¬ (rows.isEmpty = true) := by
    intro hemp
    rw [List.isEmpty_iff.mp hemp] at hlt
    simp only [List.map_nil, List.sum_nil] at hlt
    omega
  have hout : outstanding table p = (rows.map (fun r => r.amount)).sum := by
    unfold outstanding
    rw [← hrowsdef]
  set us := (clearLoop rows (some a)).2 with husdef
  have hcd : clear_debt table person (some a)
      = (us.foldl applyUpdate table,
        if 0 < (clearLoop rows (some a)).1
        then some ((clearLoop rows (some a)).1) else none) := by
    unfold clear_debt
    dsimp only
    rw [← hpdef, ← hrowsdef, if_neg hnonempty]
  -- untouched records: anything outside the fetched rows
  have hupd_ids : ∀ u ∈ us, ∃ r ∈ rows, updId u = r.id := by
    intro u hu
    rcases hch with ⟨k, _, _, hku⟩ | ⟨k, r₀, hk, _, _, hku⟩
    · rw [hku] at hu
      obtain ⟨y, hy, rfl⟩ := List.mem_map.mp hu
      exact ⟨y, List.take_subset k rows hy, rfl⟩
    · rw [hku] at hu
      rcases List.mem_append.mp hu with hu' | hu'
      · obtain ⟨y, hy, rfl⟩ := List.mem_map.mp hu'
        exact ⟨y, List.take_subset k rows hy, rfl⟩
      · rw [List.mem_singleton.mp hu']
        refine ⟨r₀, ?_, rfl⟩
        exact List.drop_subset k rows (hk ▸ List.mem_cons_self _ _)
  have huntouched : ∀ r ∈ table, debtMatches p r = false →
      us.foldl applyUpd1 r = r := by
    intro r hr hq
    refine foldl_applyUpd1_skip ?_
    intro u hu he
    obtain ⟨y, hy, hy'⟩ := hupd_ids u hu
    have : y = r := List.inj_on_of_nodup_map hids
      (List.mem_of_mem_filter (hrowsdef ▸ hy)) hr (by rw [← hy', he])
    rw [this] at hy
    rw [hrows_match r (this ▸ hy)] at hq
    cases hq
  refine ⟨?_, ?_, ?_, hch⟩
  · rw [hcd]
    dsimp only
    rw [hcl, if_pos ha]
  · -- outstanding drops by exactly `a`
    rw [hcd]
    dsimp only
    rw [foldl_applyUpdate_eq_map, outstanding_eq, List.map_map]
    have hstep1 : (table.map
        ((fun r => if debtMatches p r then r.amount else 0)
          ∘ fun r => us.foldl applyUpd1 r)).sum
        = ((table.filter (debtMatches p)).map
          ((fun r => if debtMatches p r then r.amount else 0)
            ∘ fun r => us.foldl applyUpd1 r)).sum := by
      refine sum_map_eq_sum_filter ?_
      intro r hr hq
      simp only [Function.comp]
      rw [huntouched r hr hq, if_neg (by simp [hq])]
    rw [hstep1, ← hrowsdef]
    -- the ids of the oldest-first block are disjoint from the rest
    have hdisj : ∀ i j : List DebtRec, rows = i ++ j →
        ∀ x ∈ i, ∀ y ∈ j, x.id ≠ y.id := by
      intro i j hij x hx y hy
      have := hrows_ids
      rw [hij, List.map_append, List.nodup_append] at this
      intro he
      exact this.2.2 (List.mem_map_of_mem (fun r => r.id) hx)
        (he ▸ List.mem_map_of_mem (fun r => r.id) hy)
    rcases hch with ⟨k, hk, hks, hku⟩ | ⟨k, r₀, hk, hks1, hks2, hku⟩
    · -- exact boundary: an oldest-first block is settled, nothing else
      have hsplit : rows = rows.take k ++ rows.drop k :=
        (List.take_append_drop k rows).symm
      have htake : ∀ r ∈ rows.take k,
          us.foldl applyUpd1 r = { r with settled := true } := by
        intro r hr
        rw [hku]
        exact foldl_settles_of_mem
          (hrows_ids.sublist ((List.take_sublist k rows).map _)) hr
      have hdrop : ∀ r ∈ rows.drop k, us.foldl applyUpd1 r = r := by
        intro r hr
        refine foldl_applyUpd1_skip ?_
        intro u hu he
        rw [hku] at hu
        obtain ⟨y, hy, rfl⟩ := List.mem_map.mp hu
        exact hdisj _ _ hsplit y hy r hr he
      have hsum : ∀ l : List DebtRec, ((l : List DebtRec).map
          ((fun r => if debtMatches p r then r.amount else 0)
            ∘ fun r => us.foldl applyUpd1 r)).sum
          = ((l.map ((fun r => if debtMatches p r then r.amount else 0)
            ∘ fun r => us.foldl applyUpd1 r))).sum := fun l => rfl
      conv_lhs => rw [hsplit]
      rw [List.map_append, List.sum_append]
      have h1 : ((rows.take k).map
          ((fun r => if debtMatches p r then r.amount else 0)
            ∘ fun r => us.foldl applyUpd1 r)).sum = 0 := by
        refine List.sum_eq_zero ?_
        intro x hx
        obtain ⟨r, hr, rfl⟩ := List.mem_map.mp hx
        simp only [Function.comp]
        rw [htake r hr]
        simp [debtMatches]
      have h2 : ((rows.drop k).map
          ((fun r => if debtMatches p r then r.amount else 0)
            ∘ fun r => us.foldl applyUpd1 r)).sum
          = ((rows.drop k).map (fun r => r.amount)).sum := by
        refine congrArg List.sum (List.map_congr_left ?_)
        intro r hr
        simp only [Function.comp]
        rw [hdrop r hr,
          if_pos (hrows_match r (List.drop_subset k rows hr))]
      have h3 : (rows.map (fun r => r.amount)).sum
          = ((rows.take k).map (fun r => r.amount)).sum
            + ((rows.drop k).map (fun r => r.amount)).sum := by
        conv_lhs => rw [hsplit]
        rw [List.map_append, List.sum_append]
      rw [h1, h2]
      omega
    · -- partial boundary: block settled, next record reduced
      have hsplit : rows = rows.take k ++ (r₀ :: rows.drop (k + 1)) := by
        conv_lhs => rw [← List.take_append_drop k rows]
        rw [hk]
      have hr₀_drop : r₀ ∈ rows.drop k := hk ▸ List.mem_cons_self _ _
      have hr₀_rows : r₀ ∈ rows := List.drop_subset k rows hr₀_drop
      have hdropids : ((rows.drop k).map (fun r => r.id)).Nodup :=
        hrows_ids.sublist ((List.drop_sublist k rows).map _)
      have hr₀_notin : ∀ r ∈ rows.drop (k + 1), r.id ≠ r₀.id := by
        intro r hr he
        rw [hk, List.map_cons, List.nodup_cons] at hdropids
        exact hdropids.1 (he ▸ List.mem_map_of_mem (fun z => z.id) hr)
      have htake : ∀ r ∈ rows.take k,
          us.foldl applyUpd1 r = { r with settled := true } := by
        intro r hr
        rw [hku, List.foldl_append,
          foldl_settles_of_mem
            (hrows_ids.sublist ((List.take_sublist k rows).map _)) hr]
        rw [List.foldl_cons, List.foldl_nil]
        refine applyUpd1_id ?_
        simp only [updId]
        intro he
        exact hdisj _ _ hsplit r hr r₀ (List.mem_cons_self _ _) he.symm
      have hr₀_eff : us.foldl applyUpd1 r₀
          = { r₀ with amount := r₀.amount
              - (a - ((rows.take k).map (fun r => r.amount)).sum) } := by
        have hskip : ((rows.take k).map
            (fun r => DebtUpdate.settle r.id)).foldl applyUpd1 r₀ = r₀ := by
          refine foldl_applyUpd1_skip ?_
          intro u hu he
          obtain ⟨y, hy, rfl⟩ := List.mem_map.mp hu
          exact hdisj _ _ hsplit y hy r₀ (List.mem_cons_self _ _) he
        rw [hku, List.foldl_append, hskip, List.foldl_cons, List.foldl_nil]
        simp [applyUpd1]
      have hdrop1 : ∀ r ∈ rows.drop (k + 1),
          us.foldl applyUpd1 r = r := by
        intro r hr
        refine foldl_applyUpd1_skip ?_
        intro u hu he
        rw [hku] at hu
        rcases List.mem_append.mp hu with hu' | hu'
        · obtain ⟨y, hy, rfl⟩ := List.mem_map.mp hu'
          exact hdisj _ _ hsplit y hy r
            (List.mem_cons_of_mem _ hr) he
        · rw [List.mem_singleton.mp hu'] at he
          exact hr₀_notin r hr he.symm
      conv_lhs => rw [hsplit]
      rw [List.map_append, List.sum_append, List.map_cons, List.sum_cons]
      have h1 : ((rows.take k).map
          ((fun r => if debtMatches p r then r.amount else 0)
            ∘ fun r => us.foldl applyUpd1 r)).sum = 0 := by
        refine List.sum_eq_zero ?_
        intro x hx
        obtain ⟨r, hr, rfl⟩ := List.mem_map.mp hx
        simp only [Function.comp]
        rw [htake r hr]
        simp [debtMatches]
      have h2 : ((fun r => if debtMatches p r then r.amount else 0)
            ∘ fun r => us.foldl applyUpd1 r) r₀
          = r₀.amount - (a - ((rows.take k).map (fun r => r.amount)).sum) := by
        simp only [Function.comp]
        rw [hr₀_eff]
        have : debtMatches p { r₀ with amount := r₀.amount
            - (a - ((rows.take k).map (fun r => r.amount)).sum) }
            = debtMatches p r₀ := rfl
        rw [this, if_pos (hrows_match r₀ hr₀_rows)]
      have h3 : ((rows.drop (k + 1)).map
          ((fun r => if debtMatches p r then r.amount else 0)
            ∘ fun r => us.foldl applyUpd1 r)).sum
          = ((rows.drop (k + 1)).map (fun r => r.amount)).sum := by
        refine congrArg List.sum (List.map_congr_left ?_)
        intro r hr
        simp only [Function.comp]
        rw [hdrop1 r hr,
          if_pos (hrows_match r
            (List.drop_subset k rows (hk ▸ List.mem_cons_of_mem _ hr)))]
      have h4 : (rows.map (fun r => r.amount)).sum
          = ((rows.take k).map (fun r => r.amount)).sum + r₀.amount
            + ((rows.drop (k + 1)).map (fun r => r.amount)).sum := by
        conv_lhs => rw [hsplit]
        rw [List.map_append, List.sum_append, List.map_cons, List.sum_cons]
        omega
      rw [h1, h2, h3]
      omega
  · -- every stored amount stays strictly positive
    rw [hcd]
    dsimp only
    rw [foldl_applyUpdate_eq_map]
    intro r' hr'
    obtain ⟨r, hr, rfl⟩ := List.mem_map.mp hr'
    refine foldl_applyUpd1_amount_pos (hamt r hr) ?_
    intro i b hb
    rcases hch with ⟨k, _, _, hku⟩ | ⟨k, r₀, hk, hks1, hks2, hku⟩
    · rw [hku] at hb
      obtain ⟨y, _, hy⟩ := List.mem_map.mp hb
      cases hy
    · rw [hku] at hb
      rcases List.mem_append.mp hb with hb' | hb'
      · obtain ⟨y, _, hy⟩ := List.mem_map.mp hb'
        cases hy
      · injection List.mem_singleton.mp hb' with h1 h2
        omega

/-- Witness for `clear_debt_partial_spec`: a two-record ledger for
alice (outstanding 10.00), clearing 7.00. -/
theorem clear_debt_partial_spec_witness :
    (([⟨1, "alice", "me", 400, false⟩, ⟨2, "me", "alice", 600, false⟩] :
        List DebtRec).map (fun r => r.id)).Nodup ∧
    (∀ r ∈ ([⟨1, "alice", "me", 400, false⟩,
        ⟨2, "me", "alice", 600, false⟩] : List DebtRec), 0 < r.amount) ∧
    (0 : Int) < 700 ∧
    700 < outstanding [⟨1, "alice", "me", 400, false⟩,
        ⟨2, "me", "alice", 600, false⟩] (pyLower "alice") ∧
    (clear_debt [⟨1, "alice", "me", 400, false⟩,
        ⟨2, "me", "alice", 600, false⟩] "alice" (some 700)).2 = some 700 ∧
    outstanding (clear_debt [⟨1, "alice", "me", 400, false⟩,
        ⟨2, "me", "alice", 600, false⟩] "alice" (some 700)).1
        (pyLower "alice")
      = outstanding [⟨1, "alice", "me", 400, false⟩,
        ⟨2, "me", "alice", 600, false⟩] (pyLower "alice") - 700 :=
  ⟨by decide, by decide, by decide, by decide,
    (clear_debt_partial_spec _ _ _ (by decide) (by decide) (by decide)
      (by decide)).1,
    (clear_debt_partial_spec _ _ _ (by decide) (by decide) (by decide)
      (by decide)).2.1⟩

/-! ## Claim C7: "nothing found" versus "cleared zero" -/

/-- C7: under the schema invariant that stored amounts are positive, and
for an absent or positive requested amount, `clear_debt` returns `none`
exactly when no unsettled record names the person as creditor or debtor;
whenever such a record exists it returns a strictly positive cleared
total, so "nothing found" is distinguishable from "cleared zero". -/
theorem clear_debt_none_iff (table : List DebtRec) (person : String)
    (amount : Option Int)
    (hamt : ∀ r ∈ table, 0 < r.amount)
    (hpos : ∀ b, amount = some b → 0 < b) :
    ((clear_debt table person amount).2 = none ↔
      ∀ r ∈ table, ¬ (r.settled = false ∧
        (r.creditor = pyLower person ∨ r.debtor = pyLower person))) ∧
    ((∃ r ∈ table, r.settled = false ∧
        (r.creditor = pyLower person ∨ r.debtor = pyLower person)) →
      ∃ c, (clear_debt table person amount).2 = some c ∧ 0 < c) := by
  set p := pyLower person with hpdef
  set rows := table.filter (debtMatches p) with hrowsdef
  have hmatch : ∀ r : DebtRec, debtMatches p r = true ↔
      (r.settled = false ∧ (r.creditor = p ∨ r.debtor = p)) := by
    intro r
    simp [debtMatches, Bool.and_eq_true, Bool.or_eq_true,
      Bool.not_eq_true']
  have hrows_pos : ∀ r ∈ rows, 0 < r.amount := fun r hr =>
    hamt r (List.mem_of_mem_filter hr)
  by_cases hemp : rows.isEmpty = true
  · -- nothing matches: `None`, and no record satisfies the predicate
    have hnil : rows = [] := List.isEmpty_iff.mp hemp
    have hcd : clear_debt table person amount = (table, none) := by
      unfold clear_debt
      dsimp only
      rw [← hpdef, ← hrowsdef, if_pos hemp]
    have hnone : ∀ r ∈ table, ¬ (r.settled = false ∧
        (r.creditor = p ∨ r.debtor = p)) := by
      intro r hr hcontra
      have : r ∈ rows := by
        rw [hrowsdef]
        exact List.mem_filter.mpr ⟨hr, (hmatch r).mpr hcontra⟩
      rw [hnil] at this
      cases this
    refine ⟨?_, ?_⟩
    · rw [hcd]
      simpa using hnone
    · intro ⟨r, hr, hcontra⟩
      exact absurd hcontra (hnone r hr)
  · -- something matches: a strictly positive total is cleared
    obtain ⟨r₁, rest, hcons⟩ : ∃ r₁ rest, rows = r₁ :: rest := by
      cases hrw : rows with
      | nil => rw [hrw] at hemp; simp at hemp
      | cons x xs => exact ⟨x, xs, rfl⟩
    have hsum_pos : 0 < (rows.map (fun r => r.amount)).sum := by
      rw [hcons, List.map_cons, List.sum_cons]
      have h1 : 0 < r₁.amount := hrows_pos r₁ (hcons ▸ List.mem_cons_self _ _)
      have h2 : 0 ≤ (rest.map (fun r => r.amount)).sum :=
        List.sum_nonneg fun v hv => by
          obtain ⟨y, hy, rfl⟩ := List.mem_map.mp hv
          exact le_of_lt (hrows_pos y (hcons ▸ List.mem_cons_of_mem _ hy))
      omega
    have hcleared : 0 < (clearLoop rows amount).1 := by
      cases amount with
      | none =>
        rw [clearLoop_cleared_none]
        exact hsum_pos
      | some b =>
        have hb : 0 < b := hpos b rfl
        rw [clearLoop_cleared_some rows b (le_of_lt hb) hrows_pos]
        simp only [lt_min_iff]
        exact ⟨hb, hsum_pos⟩
    have hcd : clear_debt table person amount
        = ((clearLoop rows amount).2.foldl applyUpdate table,
          some ((clearLoop rows amount).1)) := by
      unfold clear_debt
      dsimp only
      rw [← hpdef, ← hrowsdef, if_neg hemp, if_pos hcleared]
    have hex : ∃ r ∈ table, r.settled = false ∧
        (r.creditor = p ∨ r.debtor = p) := by
      refine ⟨r₁, List.mem_of_mem_filter (hrowsdef ▸ hcons ▸
        List.mem_cons_self r₁ rest), (hmatch r₁).mp ?_⟩
      exact List.of_mem_filter (hrowsdef ▸ hcons ▸ List.mem_cons_self r₁ rest)
    refine ⟨?_, ?_⟩
    · rw [hcd]
      simp only [Prod.snd]
      constructor
      · intro h
        cases h
      · intro hnone
        obtain ⟨r, hr, hc⟩ := hex
        exact absurd hc (hnone r hr)
    · intro _
      exact ⟨(clearLoop rows amount).1, by rw [hcd], hcleared⟩

/-- Witness for `clear_debt_none_iff`: one matching unsettled record,
no requested cap. -/
theorem clear_debt_none_iff_witness :
    (∀ r ∈ ([⟨1, "alice", "me", 500, false⟩] : List DebtRec),
      0 < r.amount) ∧
    ((clear_debt [⟨1, "alice", "me", 500, false⟩] "alice" none).2 = none ↔
      ∀ r ∈ ([⟨1, "alice", "me", 500, false⟩] : List DebtRec),
        ¬ (r.settled = false ∧
          (r.creditor = pyLower "alice" ∨ r.debtor = pyLower "alice"))) ∧
    ((∃ r ∈ ([⟨1, "alice", "me", 500, false⟩] : List DebtRec),
        r.settled = false ∧
          (r.creditor = pyLower "alice" ∨ r.debtor = pyLower "alice")) →
      ∃ c, (clear_debt [⟨1, "alice", "me", 500, false⟩] "alice" none).2
          = some c ∧ 0 < c) :=
  ⟨by decide,
    (clear_debt_none_iff _ _ none (by decide)
      (fun b h => Option.noConfusion h)).1,
    (clear_debt_none_iff _ _ none (by decide)
      (fun b h => Option.noConfusion h)).2⟩

/-! ## Claim C5: `Database.delete_transaction` reverses the balance
effect

The `transactions` table is a list of records; the cached Balance
(config key `"balance"`) is an `Option Int` (`none` = not set).
`adjust_balance` adds a delta when a balance is set (`set_balance`
rounds to cents — the identity here) and is a no-op otherwise. -/

/-- The `type` column: `CHECK(type IN ('spend','income'))`. -/
inductive TType where
  | spend
  | income
  deriving DecidableEq, Repr

/-- A row of the `transactions` table. -/
structure TxRec where
  id : Nat
  amount : Int
  type : TType
  category : String
  description : String
  deriving DecidableEq, Repr

/-- `Database.adjust_balance`. -/
def adjust_balance (bal : Option Int) (delta : Int) : Option Int :=
  match bal with
  | none => none
  | some b => some (b + delta)

/-- `Database.delete_transaction`: read the cached balance, fetch the
row by id (`fetchone`), delete it (`DELETE ... WHERE id = ?`), and — if
a balance was set — reverse the row's effect: add back a spend's
amount, remove an income's.  Returns the new table, the new balance and
the success flag. -/
def delete_transaction (txs : List TxRec) (bal : Option Int) (tid : Nat) :
    List TxRec × Option Int × Bool :=
  let current := bal
  match txs.find? (fun r => r.id == tid) with
  | none => (txs, bal, false)
  | some row =>
    let txs1 := txs.filter (fun r => ¬ (r.id = tid))
    let bal1 :=
      if current.isSome then
        if row.type = TType.spend then adjust_balance bal row.amount
        else adjust_balance bal (-row.amount)
      else bal
    (txs1, bal1, true)

/-- C5: when a balance `B` is set and the stored transaction with the
given id has kind spend and amount `X`, a successful delete sets the
balance to `B + X`; for kind income it sets the balance to `B - X`. -/
theorem delete_transaction_reverses (txs : List TxRec) (B : Int)
    (tid : Nat) (row : TxRec)
    (hfind : txs.find? (fun r => r.id == tid) = some row) :
    (row.type = TType.spend →
      (delete_transaction txs (some B) tid).2.1 = some (B + row.amount) ∧
      (delete_transaction txs (some B) tid).2.2 = true) ∧
    (row.type = TType.income →
      (delete_transaction txs (some B) tid).2.1 = some (B - row.amount) ∧
      (delete_transaction txs (some B) tid).2.2 = true) := by
  unfold delete_transaction
  rw [hfind]
  dsimp only
  constructor
  · intro hty
    rw [if_pos (show (some B : Option Int).isSome = true from rfl),
      if_pos hty]
    exact ⟨rfl, rfl⟩
  · intro hty
    have hne : ¬ (row.type = TType.spend) := by
      rw [hty]
      intro h
      cases h
    rw [if_pos (show (some B : Option Int).isSome = true from rfl),
      if_neg hne]
    refine ⟨?_, rfl⟩
    simp [adjust_balance, sub_eq_add_neg]

/-- Witness for `delete_transaction_reverses`: deleting a spend of 5.00
at balance 10.00 raises the balance to 15.00; the mirrored income case
is vacuous at this input. -/
theorem delete_transaction_reverses_witness :
    ([⟨1, 500, TType.spend, "food", "lunch"⟩] : List TxRec).find?
        (fun r => r.id == 1)
      = some ⟨1, 500, TType.spend, "food", "lunch"⟩ ∧
    (delete_transaction [⟨1, 500, TType.spend, "food", "lunch"⟩]
        (some 1000) 1).2.1 = some (1000 + 500) ∧
    (delete_transaction [⟨1, 500, TType.spend, "food", "lunch"⟩]
        (some 1000) 1).2.2 = true :=
  ⟨by decide,
    ((delete_transaction_reverses _ 1000 1
      ⟨1, 500, TType.spend, "food", "lunch"⟩ (by decide)).1 rfl).1,
    ((delete_transaction_reverses _ 1000 1
      ⟨1, 500, TType.spend, "food", "lunch"⟩ (by decide)).1 rfl).2⟩

/-! ## `finance.parse_csv_transactions`

Modelling notes: `csv.reader(io.StringIO(csv_text))` reads lines split
at `\n` with no newline translation (`io.StringIO`'s default
`newline` is `\n`), and the function materialises every row up front
with `list(reader)`, so any `_csv.Error` the reader raises aborts the
whole parse.  For input without quote characters (the bank-export
formats the function documents; a `"` at the start of a field would
switch the reader into quoted mode) the reader's behaviour is:

* it raises `_csv.Error` (*new-line character seen in unquoted field*)
  whenever a `\r` is followed by a character other than `\r` or `\n`:
  after a `\r` the tokenizer enters its end-of-record state, in which
  only further `\r`/`\n` characters are consumed;
* it raises `_csv.Error` (*field larger than field limit*) as soon as a
  single field exceeds 131072 characters;
* otherwise each `\n`-line, with its trailing run of `\r`s removed,
  becomes one row (a trailing final newline yields no extra row, an
  empty line a zero-cell row), split into cells at commas.  A NUL
  character does not raise and is an ordinary field character.

Python floats are modelled as exact decimals; this matches `float()`
on acceptance and differs in value only by binary64 rounding, which no
comparison in the code can observe except within an ulp of the 0.001
truthiness threshold.  `\d` of `re` and the digits `float()` accepts
are the Unicode decimal digits (category `Nd`), embedded below as the
full range table; `str.strip()` whitespace is likewise the full
`str.isspace()` set.  `str.lower()` is folded per ASCII; this cannot
change membership in the header-alias sets, since no alias contains
`k`, the only ASCII letter that is the lowercase of a non-ASCII
character, and the Arabic aliases are caseless. -/

/-- Split characters into line segments at `\n` (the only separator at
which `io.StringIO` yields lines). -/
def splitOnLf : List Char → List (List Char)
  | [] => [[]]
  | '\n' :: rest => [] :: splitOnLf rest
  | c :: rest =>
    match splitOnLf rest with
    | [] => [[c]]
    | l :: ls => (c :: l) :: ls

/-- Drop the trailing run of `\r` characters of one line: the reader's
end-of-record state consumes them (any other character after a `\r`
raises instead, see `csvScanErr`). -/
def stripTrailingCr (line : List Char) : List Char :=
  (line.reverse.dropWhile (fun c => c = '\r')).reverse

/-- Split one line into cells at commas. -/
def splitComma : List Char → List (List Char)
  | [] => [[]]
  | ',' :: rest => [] :: splitComma rest
  | c :: rest =>
    match splitComma rest with
    | [] => [[c]]
    | l :: ls => (c :: l) :: ls

/-- One CSV row; an empty line parses to a row with no cells. -/
def rowOfLine (line : List Char) : List String :=
  match line with
  | [] => []
  | _ => (splitComma line).map (fun cs => ⟨cs⟩)

/-- The row structure `list(csv.reader(io.StringIO(text)))` returns on
unquoted input it accepts (see `csvScanErr` for when it raises
instead): one row per `\n`-line, trailing `\r`-run removed, a trailing
final newline yielding no extra row. -/
def csvRows (text : String) : List (List String) :=
  match text.data with
  | [] => []
  | cs =>
    let segs := splitOnLf cs
    let segs1 := if segs.getLast? = some [] then segs.dropLast else segs
    segs1.map (fun l => rowOfLine (stripTrailingCr l))

/-- The `_csv` reasons `list(csv.reader(...))` raises on unquoted
input. -/
inductive CsvError where
  | newlineInUnquoted
  | fieldOverLimit
  deriving DecidableEq, Repr

/-- `csv.field_size_limit()` default. -/
def csvFieldLimit : Nat := 131072

/-- Single left-to-right scan deciding whether `list(csv.reader(...))`
raises on unquoted input, mirroring the `_csv` tokenizer: `flen` is the
length of the field being accumulated (a field may have exactly
`csvFieldLimit` characters; adding one more raises), and `eat` is the
end-of-record state entered after a `\r`, in which `\r` stays, `\n`
leaves (the line ends) and anything else raises. -/
def csvScanErr : List Char → Nat → Bool → Option CsvError
  | [], _, _ => none
  | c :: rest, flen, eat =>
    if eat then
      if c = '\n' then csvScanErr rest 0 false
      else if c = '\r' then csvScanErr rest 0 true
      else some CsvError.newlineInUnquoted
    else if c = '\r' then csvScanErr rest 0 true
    else if c = '\n' then csvScanErr rest 0 false
    else if c = ',' then csvScanErr rest 0 false
    else if flen = csvFieldLimit then some CsvError.fieldOverLimit
    else csvScanErr rest (flen + 1) false

instance {ε α : Type} [DecidableEq ε] [DecidableEq α] :
    DecidableEq (Except ε α) := fun a b =>
  match a, b with
  | Except.error x, Except.error y =>
    decidable_of_iff (x = y) ⟨fun h => by rw [h], fun h => by injection h⟩
  | Except.ok x, Except.ok y =>
    decidable_of_iff (x = y) ⟨fun h => by rw [h], fun h => by injection h⟩
  | Except.error _, Except.ok _ => isFalse (fun h => by injection h)
  | Except.ok _, Except.error _ => isFalse (fun h => by injection h)

/-- `list(csv.reader(io.StringIO(text)))` on unquoted input: either the
`_csv.Error` it raises, or the row list. -/
def readCsv (text : String) : Except CsvError (List (List String)) :=
  match csvScanErr text.data 0 false with
  | some e => Except.error e
  | none => Except.ok (csvRows text)

/-- The `str.isspace()` code points (what `str.strip()` removes). -/
def pySpaceCodes : List Nat :=
  [9, 10, 11, 12, 13, 28, 29, 30, 31, 32, 133, 160, 5760, 8192, 8193,
    8194, 8195, 8196, 8197, 8198, 8199, 8200, 8201, 8202, 8232, 8233,
    8239, 8287, 12288]

def pyIsSpace (c : Char) : Bool := pySpaceCodes.contains c.toNat

/-- `str.strip()`. -/
def pyStrip (s : String) : String :=
  ⟨((s.data.dropWhile pyIsSpace).reverse.dropWhile pyIsSpace).reverse⟩

/-- `_DATE_COLS`. -/
def dateCols : List String :=
  ["date", "transaction date", "trans date", "value date", "posted date",
    "تاريخ"]

/-- `_DESC_COLS`. -/
def descCols : List String :=
  ["description", "narrative", "details", "memo", "particulars",
    "transaction", "بيان"]

/-- `_AMOUNT_COLS`. -/
def amountCols : List String :=
  ["amount", "debit/credit", "value", "sum", "المبلغ"]

/-- `_DEBIT_COLS`. -/
def debitCols : List String := ["debit", "withdrawal", "سحب"]

/-- `_CREDIT_COLS`. -/
def creditCols : List String := ["credit", "deposit", "إيداع"]

/-- Locate the header row: the first row with a recognizable date,
description or amount column; returns its normalized cells and the
remaining data rows. -/
def findHeader :
    List (List String) → Option (List String × List (List String))
  | [] => none
  | row :: rest =>
    let normalized := row.map (fun c => pyLower (pyStrip c))
    if normalized.any (fun c =>
        dateCols.contains c || descCols.contains c
          || amountCols.contains c) then
      some (normalized, rest)
    else findHeader rest

def findColAux (candidates : List String) : Nat → List String → Option Nat
  | _, [] => none
  | i, h :: rest =>
    if candidates.contains (pyLower (pyStrip h)) then some i
    else findColAux candidates (i + 1) rest

/-- `_find_col`. -/
def find_col (headers candidates : List String) : Option Nat :=
  findColAux candidates 0 headers

/-- The code-point ranges of the Unicode decimal digits (category
`Nd`): what `\d` of `re` matches and what `float()` accepts in digit
positions.  Within each range the digit value cycles `0`–`9` from the
lower bound (the one 50-wide range is the five consecutive styled
mathematical digit blocks). -/
def decDigitRanges : List (Nat × Nat) :=
  [(48, 57), (1632, 1641), (1776, 1785), (1984, 1993), (2406, 2415),
    (2534, 2543), (2662, 2671), (2790, 2799), (2918, 2927), (3046, 3055),
    (3174, 3183), (3302, 3311), (3430, 3439), (3558, 3567), (3664, 3673),
    (3792, 3801), (3872, 3881), (4160, 4169), (4240, 4249), (6112, 6121),
    (6160, 6169), (6470, 6479), (6608, 6617), (6784, 6793), (6800, 6809),
    (6992, 7001), (7088, 7097), (7232, 7241), (7248, 7257), (42528, 42537),
    (43216, 43225), (43264, 43273), (43472, 43481), (43504, 43513),
    (43600, 43609), (44016, 44025), (65296, 65305), (66720, 66729),
    (68912, 68921), (69734, 69743), (69872, 69881), (69942, 69951),
    (70096, 70105), (70384, 70393), (70736, 70745), (70864, 70873),
    (71248, 71257), (71360, 71369), (71472, 71481), (71904, 71913),
    (72016, 72025), (72784, 72793), (73040, 73049), (73120, 73129),
    (92768, 92777), (92864, 92873), (93008, 93017), (120782, 120831),
    (123200, 123209), (123632, 123641), (125264, 125273), (130032, 130041)]

/-- A Unicode decimal digit (`\d` / a digit `float()` accepts). -/
def pyIsDigit (c : Char) : Bool :=
  decDigitRanges.any fun r => r.1 ≤ c.toNat && c.toNat ≤ r.2

/-- The decimal value of a Unicode decimal digit. -/
def digitVal (c : Char) : Nat :=
  match decDigitRanges.find? (fun r => r.1 ≤ c.toNat && c.toNat ≤ r.2) with
  | some r => (c.toNat - r.1) % 10
  | none => 0

/-- The `re.sub(r"[^\d.\-+]", "", value.replace(",", ""))` cleaning. -/
def cleanAmount (s : String) : List Char :=
  s.data.filter (fun c => pyIsDigit c || c = '.' || c = '-' || c = '+')

def digitsVal (ds : List Char) : Nat :=
  ds.foldl (fun n c => 10 * n + digitVal c) 0

/-- The exact value of a parsed decimal string: `num / 10 ^ scale`.
Every string `float()` accepts after the cleaning (digits, one optional
dot, an optional leading sign) denotes exactly such a number, so this
represents the parsed amount without loss. -/
structure PyDec where
  num : Int
  scale : Nat
  deriving DecidableEq, Repr

/-- `float(s)` on a cleaned string (only digits, dots and signs can
remain): an optional leading sign, at least one digit, at most one dot,
no interior signs. -/
def pyFloat? (cs : List Char) : Option PyDec :=
  let sign : Int :=
    match cs with
    | '-' :: _ => -1
    | _ => 1
  let rest : List Char :=
    match cs with
    | '+' :: r => r
    | '-' :: r => r
    | r => r
  if (rest.all fun c => pyIsDigit c || c = '.') = true
      ∧ rest.count '.' ≤ 1
      ∧ (rest.any fun c => pyIsDigit c) = true then
    let ip := rest.takeWhile fun c => ¬ (c = '.')
    let fp := (rest.dropWhile fun c => ¬ (c = '.')).drop 1
    some ⟨sign * ((digitsVal ip : Int) * 10 ^ fp.length + digitsVal fp),
      fp.length⟩
  else none

/-- `_parse_amount`. -/
def parse_amount (value : String) : Option PyDec :=
  pyFloat? (cleanAmount value)

/-- `d != 0 and abs(d) > 0.001` (Python truthiness of a float plus the
threshold): `|num / 10^scale| > 1/1000` iff `1000·|num| > 10^scale`. -/
def decTruthyBig (d : PyDec) : Prop :=
  d.num ≠ 0 ∧ 10 ^ d.scale < 1000 * |d.num|

instance : DecidablePred decTruthyBig := fun d =>
  decidable_of_iff (d.num ≠ 0 ∧ 10 ^ d.scale < 1000 * |d.num|) Iff.rfl

/-- `-abs(d)` on exact decimals. -/
def decNegAbs (d : PyDec) : PyDec := ⟨-|d.num|, d.scale⟩

/-- `abs(d)` on exact decimals. -/
def decAbs (d : PyDec) : PyDec := ⟨|d.num|, d.scale⟩

/-- `round(d, 2)` in integer cents: `⌊d·100 + 1/2⌋` computed exactly as
`⌊(2·num·100 + 10^scale) / (2·10^scale)⌋` (halves up; Python's
half-even differs only at exact half-cent values, which no statement
here exercises). -/
def roundCents (d : PyDec) : Int :=
  Int.fdiv (2 * (d.num * 100) + 10 ^ d.scale) (2 * 10 ^ d.scale)

/-- A normalized transaction `{date, description, amount}`; the amount
is stored rounded to 2 decimals, held here in integer cents. -/
structure CsvTx where
  date : Option String
  description : String
  amount : Int
  deriving DecidableEq, Repr

/-- The five resolved column indices. -/
structure CsvCols where
  date_col : Option Nat
  desc_col : Option Nat
  amt_col : Option Nat
  debit_col : Option Nat
  credit_col : Option Nat
  deriving DecidableEq, Repr

/-- Column resolution against the normalized header row. -/
def colsOf (headers : List String) : CsvCols :=
  { date_col := find_col headers dateCols
    desc_col := find_col headers descCols
    amt_col := find_col headers amountCols
    debit_col := find_col headers debitCols
    credit_col := find_col headers creditCols }

/-- `not any(cell.strip() for cell in row)`. -/
def blankRow (row : List String) : Bool :=
  row.all fun cell => (pyStrip cell).isEmpty

/-- Description extraction with the `"transaction"` default. -/
def descOf (cols : CsvCols) (row : List String) : String :=
  match cols.desc_col with
  | some i =>
    if i < row.length then pyStrip (row.getD i "") else "transaction"
  | none => "transaction"

/-- Raw date text extraction. -/
def dateOf (cols : CsvCols) (row : List String) : Option String :=
  match cols.date_col with
  | some i => if i < row.length then some (pyStrip (row.getD i "")) else none
  | none => none

/-- The debit/credit fallback: a truthy nonzero debit gives a negative
amount, then a truthy nonzero credit overrides with a positive one. -/
def amountOfDC (cols : CsvCols) (row : List String) : Option PyDec :=
  match cols.debit_col, cols.credit_col with
  | some di, some ci =>
    let debit := if di < row.length then parse_amount (row.getD di "")
      else none
    let credit := if ci < row.length then parse_amount (row.getD ci "")
      else none
    let a₁ : Option PyDec :=
      match debit with
      | some d => if decTruthyBig d then some (decNegAbs d) else none
      | none => none
    match credit with
    | some c => if decTruthyBig c then some (decAbs c) else a₁
    | none => a₁
  | _, _ => none

/-- Amount resolution: prefer an in-range combined amount column, else
fall back to separate debit/credit columns. -/
def amountOf (cols : CsvCols) (row : List String) : Option PyDec :=
  match cols.amt_col with
  | some i =>
    if i < row.length then parse_amount (row.getD i "")
    else amountOfDC cols row
  | none => amountOfDC cols row

/-- Python `repr` of a row of plain strings, as interpolated into the
error message. -/
def pyReprRow (row : List String) : String :=
  "[" ++ String.intercalate ", "
    (row.map fun s => "\x27" ++ s ++ "\x27") ++ "]"

def errMsg (row : List String) : String :=
  "Could not parse amount in row: " ++ pyReprRow row

/-- The per-row loop over the data rows: blank rows are skipped, rows
without a resolvable amount append an error and parsing continues,
other rows append a transaction (amount rounded to 2 decimals). -/
def processRows (cols : CsvCols) :
    List (List String) → List CsvTx × List String
  | [] => ([], [])
  | row :: rest =>
    let res := processRows cols rest
    if blankRow row then res
    else
      match amountOf cols row with
      | none => (res.1, errMsg row :: res.2)
      | some amt =>
        ({ date := dateOf cols row, description := descOf cols row,
            amount := roundCents amt } :: res.1, res.2)

/-- `parse_csv_transactions`: `rows = list(reader)` runs first, so a
`_csv.Error` propagates before any row is examined; otherwise the
function returns a `(transactions, errors)` pair. -/
def parse_csv_transactions (csv_text : String) :
    Except CsvError (List CsvTx × List String) :=
  match readCsv csv_text with
  | Except.error e => Except.error e
  | Except.ok rows =>
    Except.ok
      (if rows.isEmpty then ([], ["Empty file"])
      else
        match findHeader rows with
        | none => ([], ["No recognizable header row found"])
        | some (headers, dataRows) => processRows (colsOf headers) dataRows)

/-- The import path's classification (`bot.handle_document`):
`t_type = "income" if t["amount"] > 0 else "spend"`; the stored amount
is cent-valued, so positivity in cents is positivity of the float. -/
def classifyTx (amountCents : Int) : TType :=
  if 0 < amountCents then TType.income else TType.spend

/-! ## Claims C6 and C8: CSV ingestion -/

theorem processRows_counts (cols : CsvCols) (rows : List (List String)) :
    (processRows cols rows).2.length
      = (rows.filter (fun row =>
          !blankRow row && (amountOf cols row).isNone)).length ∧
    (processRows cols rows).1.length
      = (rows.filter (fun row =>
          !blankRow row && (amountOf cols row).isSome)).length := by
  induction rows with
  | nil => exact ⟨rfl, rfl⟩
  | cons row rest ih =>
    simp only [processRows, List.filter_cons]
    by_cases hb : blankRow row = true
    · rw [if_pos hb,
        if_neg (by simp [hb]),
        if_neg (by simp [hb])]
      exact ih
    · rw [if_neg hb]
      cases ham : amountOf cols row with
      | none =>
        rw [if_pos (by simp [hb, ham]),
          if_neg (by simp [hb, ham])]
        simp only [List.length_cons]
        exact ⟨by rw [ih.1], ih.2⟩
      | some amt =>
        rw [if_neg (by simp [hb, ham]),
          if_pos (by simp [hb, ham])]
        simp only [List.length_cons]
        exact ⟨ih.1, by rw [ih.2]⟩

/-- C6 (amended): malformed individual data rows never raise — on every
quote-free input the csv reader accepts, `parse_csv_transactions`
returns a `(transactions, errors)` pair: a structurally empty file
yields zero transactions with the single error `"Empty file"`, a
header-less file zero transactions with the single error
`"No recognizable header row found"`, and otherwise each non-blank data
row whose amount cannot be resolved only appends one error while
parsing continues — the error count is exactly the number of non-blank
unresolvable rows and the transaction count the number of non-blank
resolvable rows.  The function *can* raise, but only out of
`list(csv.reader(...))` itself (a bare `\r` in an unquoted field, or a
field beyond the 131072-character limit), never from a row's content
downstream of the reader; and "zero transactions with a single error
exactly when empty or header-less" fails — see the counterexample. -/
theorem parse_csv_spec (txt : String) :
    (readCsv txt = Except.ok [] →
      parse_csv_transactions txt = Except.ok ([], ["Empty file"])) ∧
    (∀ rows, readCsv txt = Except.ok rows → rows ≠ [] →
      findHeader rows = none →
      parse_csv_transactions txt
        = Except.ok ([], ["No recognizable header row found"])) ∧
    (∀ rows headers dataRows, readCsv txt = Except.ok rows →
      findHeader rows = some (headers, dataRows) →
      parse_csv_transactions txt
        = Except.ok (processRows (colsOf headers) dataRows) ∧
      (processRows (colsOf headers) dataRows).2.length
        = (dataRows.filter (fun row =>
            !blankRow row && (amountOf (colsOf headers) row).isNone)).length ∧
      (processRows (colsOf headers) dataRows).1.length
        = (dataRows.filter (fun row =>
            !blankRow row && (amountOf (colsOf headers) row).isSome)).length)
    := by
  refine ⟨?_, ?_, ?_⟩
  · intro h
    simp [parse_csv_transactions, h]
  · intro rows h hne hh
    have hemp : ¬ (rows.isEmpty = true) := by
      intro h0
      exact hne (List.isEmpty_iff.mp h0)
    simp [parse_csv_transactions, h, hemp, hh]
  · intro rows headers dataRows h hh
    have hne : rows ≠ [] := by
      intro h0
      rw [h0] at hh
      cases hh
    have hemp : ¬ (rows.isEmpty = true) := by
      intro h0
      exact hne (List.isEmpty_iff.mp h0)
    refine ⟨?_, processRows_counts (colsOf headers) dataRows⟩
    simp [parse_csv_transactions, h, hemp, hh]

/-- C6 counterexample: the input `"amount\nxyz"` has a recognizable
header and is not empty, yet returns zero transactions together with a
single descriptive error (the unparseable-amount row) — so "zero
transactions with a single error exactly when the file is empty or
header-less" fails in the only-if direction; and the input `"a\rb"`
(a bare carriage return inside an unquoted field) makes
`list(csv.reader(...))` raise `_csv.Error`, so "never raises for any
input text" fails as well. -/
theorem parse_csv_iff_counterexample :
    parse_csv_transactions "amount\nxyz"
      = Except.ok ([], ["Could not parse amount in row: [\x27xyz\x27]"]) ∧
    csvRows "amount\nxyz" ≠ [] ∧
    findHeader (csvRows "amount\nxyz") ≠ none ∧
    parse_csv_transactions "a\rb"
      = Except.error CsvError.newlineInUnquoted :=
  ⟨by decide, by decide, by decide, by decide⟩

/-- Witness for `parse_csv_spec`: the empty file, a header-less file,
and a one-column statement with one bad and one good row. -/
theorem parse_csv_spec_witness :
    parse_csv_transactions "" = Except.ok ([], ["Empty file"]) ∧
    parse_csv_transactions "xyz"
      = Except.ok ([], ["No recognizable header row found"]) ∧
    parse_csv_transactions "amount\nxyz\n50"
      = Except.ok (processRows (colsOf ["amount"]) [["xyz"], ["50"]]) ∧
    (processRows (colsOf ["amount"]) [["xyz"], ["50"]]).2.length
      = ([["xyz"], ["50"]].filter (fun row =>
          !blankRow row && (amountOf (colsOf ["amount"]) row).isNone)).length ∧
    (processRows (colsOf ["amount"]) [["xyz"], ["50"]]).1.length
      = ([["xyz"], ["50"]].filter (fun row =>
          !blankRow row && (amountOf (colsOf ["amount"]) row).isSome)).length :=
  ⟨(parse_csv_spec "").1 (by decide),
    (parse_csv_spec "xyz").2.1 [["xyz"]] (by decide) (by decide) (by decide),
    ((parse_csv_spec "amount\nxyz\n50").2.2 [["amount"], ["xyz"], ["50"]]
      ["amount"] [["xyz"], ["50"]] (by decide) (by decide)).1,
    ((parse_csv_spec "amount\nxyz\n50").2.2 [["amount"], ["xyz"], ["50"]]
      ["amount"] [["xyz"], ["50"]] (by decide) (by decide)).2.1,
    ((parse_csv_spec "amount\nxyz\n50").2.2 [["amount"], ["xyz"], ["50"]]
      ["amount"] [["xyz"], ["50"]] (by decide) (by decide)).2.2⟩

/-- C8: the statement with header `date,amount,category,description`
and data row `2026-02-26,50.00,food,groceries` parses (without the
reader raising) to exactly one transaction `{date: "2026-02-26",
description: "groceries", amount: 50.00}` (5000 cents) with an empty
error list, and the import path classifies it as income because the
amount is positive. -/
theorem csv_roundtrip_spec :
    parse_csv_transactions
        "date,amount,category,description\n2026-02-26,50.00,food,groceries"
      = Except.ok
          ([{ date := some "2026-02-26", description := "groceries",
              amount := 5000 }], []) ∧
    (0 : Int) < 5000 ∧
    classifyTx 5000 = TType.income :=
  ⟨by decide, by decide, by decide⟩

end FinanceBot
